import Mathlib

/-!
# peep: decoding and rendering of a virtual console screen buffer

A shallow embedding of `src/peep.c` and a verification of its specification.

Conventions of the embedding.

* A byte is a `Nat` below 256, an `unsigned short` a `Nat` below 65536.  The
  fields of `struct console` keep their C names.
* `char` is the signed 8-bit type of the Linux/x86 ABI the program is written
  for.  A `char` that is used as a number (`attr`, `c`) is an `Int` in
  `-128 .. 127`; a `char` that is only stored and printed (`data`, the line
  buffer) is represented by its byte.
* `int` is 32 bits wide, two's complement.  Values are `Int`; where the code
  applies `&` to a value that may be negative the operand is first turned
  into its 32-bit pattern with `u32`.
* `stdout` is the list of bytes written so far.
* `err (EXIT_FAILURE, ..)` and `usage ()` end the process: the operation
  returns `none`.
-/

namespace Peep

/-! ## Machine integers -/

/-- Conversion of an `int` to `char` (signed, 8 bits): the value wraps. -/
def to_char (n : Int) : Int := (n + 128) % 256 - 128

/-- Two's complement bit pattern of a 32-bit `int`. -/
def u32 (x : Int) : Nat := (x % 4294967296).toNat

/-- The bytes of a string literal. -/
def bytes (s : String) : List Nat := s.toList.map Char.toNat

/-- The text `printf` writes for `%d`. -/
def decimal (n : Nat) : List Nat := bytes (Nat.repr n)

/-! ## Constants and tables (peep.c 17-59) -/

def MAX_LINES : Nat := 255

def MAX_COLUMNS : Nat := 255

/-- The file-scope colour tables; `main` overwrites entries for option `-l`,
so they are part of the program state. -/
structure Globals where
  ansi_fg_color : List (List Nat)
  ansi_bg_color : List (List Nat)
deriving DecidableEq

/-- Initial contents of `ansi_fg_color`. -/
def ansi_fg_color : List (List Nat) :=
  [bytes "30", bytes "31", bytes "32", bytes "33", bytes "34", bytes "35", bytes "36", bytes "37"]

/-- Initial contents of `ansi_bg_color`. -/
def ansi_bg_color : List (List Nat) :=
  [bytes "40", bytes "41", bytes "42", bytes "43", bytes "44", bytes "45", bytes "46", bytes "47"]

/-- The tables as the program starts. -/
def Globals.initial : Globals := ⟨Peep.ansi_fg_color, Peep.ansi_bg_color⟩

def reverse_bits : List Nat := [0, 4, 2, 6, 1, 5, 3, 7]

/-! ## struct console (peep.c 20-38) -/

structure console_attributes where
  lines : Nat
  columns : Nat
  x : Nat
  y : Nat

structure console_flags where
  printed : Bool
  light : Bool
  plain : Bool
  watch : Bool

structure console where
  vfd : Int
  tfd : Int
  printed : Int
  attributes : console_attributes
  flags : console_flags
  mask : Nat
  chars : Nat → Nat → Nat

/-- Ranges the C types give the fields: `unsigned char` dimensions, an
`unsigned short` mask and `unsigned short` cells. -/
def console.wf (cnsl : console) : Prop :=
  cnsl.attributes.lines ≤ 255 ∧ cnsl.attributes.columns ≤ 255 ∧ cnsl.mask < 65536 ∧
    ∀ i j, cnsl.chars i j < 65536

/-- The effect of `memset (cnsl, 0, sizeof (struct console))`. -/
def console_init : console :=
  { vfd := 0, tfd := 0, printed := 0,
    attributes := ⟨0, 0, 0, 0⟩,
    flags := ⟨false, false, false, false⟩,
    mask := 0,
    chars := fun _ _ => 0 }

/-! ## Attribute extraction (peep.c 140-141, 167-171, 200-207) -/

/-- The macro `bits(v,p,n)`, `(((v) >> (p)) & ((1 << (n)) - 1))`, on an `int`
operand: `>>` is the arithmetic shift. -/
def bits (v : Int) (p n : Nat) : Nat := u32 (v >>> p) &&& ((1 <<< n) - 1)

/-- The character `data = (cnsl->chars[i][j] & 0xff)` of a cell, as a byte. -/
def cell_data (v : Nat) : Nat := v &&& 0xff

/-- The value of `attr` for a cell `v = cnsl->chars[i][j]`:
`attr = (v & ~cnsl->mask) >> 8`, then `attr >>= 1` when the mask is not zero.
Both assignments convert the `int` result to `char`. -/
def cell_attr (mask v : Nat) : Int :=
  let attr := to_char (((v &&& u32 (~~~ (mask : Int))) >>> 8 : Nat) : Int)
  if mask ≠ 0 then to_char (attr >>> (1 : Nat)) else attr

/-- Index into `ansi_fg_color` in `console_print_buffer`:
`reverse_bits[bits (attr, 0, 3)]`. -/
def fg_index (attr : Int) : Nat := reverse_bits.getD (bits attr 0 3) 0

/-- Index into `ansi_bg_color` in `console_print_buffer`:
`reverse_bits[bits (attr, 4, 3)]`. -/
def bg_index (attr : Int) : Nat := reverse_bits.getD (bits attr 4 3) 0

/-- The test `bits (attr, 3, 1)` that selects the bold suffix. -/
def bold_bit (attr : Int) : Nat := bits attr 3 1

/-! ## console_print_buffer (peep.c 143-175) -/

/-- The bytes `printf` writes for `%s`: the bytes of the buffer from index
`k` up to the first NUL.  The fuel is the number of bytes of the array that
remain to be looked at. -/
def c_string (buffer : Nat → Nat) : Nat → Nat → List Nat
  | 0, _ => []
  | fuel + 1, k => if buffer k = 0 then [] else buffer k :: c_string buffer fuel (k + 1)

/-- The loop `for (; n > 0; n--) { if (buffer[n - 1] != ' ') break; }`;
the result is the final value of `n`. -/
def trim_loop (buffer : Nat → Nat) : Nat → Nat
  | 0 => 0
  | n + 1 => if buffer n ≠ 32 then n + 1 else trim_loop buffer n

/-- The output of `printf ("\x1b[%s;%s%sm%s\x1b[0m", fg, bg, bold, buffer)`,
where `text` is what `%s` writes for `buffer`. -/
def printf_colored (fg bg bold text : List Nat) : List Nat :=
  bytes "\x1b[" ++ fg ++ bytes ";" ++ bg ++ bold ++ bytes "m" ++ text ++ bytes "\x1b[0m"

/-- The function `console_print_buffer (cnsl, buffer, n, attr)`.  `buffer` is
the 256-byte array `line` and `out` is stdout; the result is the buffer and
stdout after the call. -/
def console_print_buffer (g : Globals) (cnsl : console) (buffer : Nat → Nat) (n : Nat)
    (attr : Int) (out : List Nat) : (Nat → Nat) × List Nat :=
  let buffer := Function.update buffer n 0
  if cnsl.flags.plain then
    let n := trim_loop buffer n
    let buffer := Function.update buffer n 0
    (buffer, out ++ c_string buffer (MAX_COLUMNS + 1) 0)
  else
    let fg := g.ansi_fg_color.getD (fg_index attr) []
    let bg := g.ansi_bg_color.getD (bg_index attr) []
    let bold := if bold_bit attr ≠ 0 then bytes ";1" else bytes ""
    (buffer, out ++ printf_colored fg bg bold (c_string buffer (MAX_COLUMNS + 1) 0))

/-! ## console_print (peep.c 177-236) -/

/-- The variables of `console_print` that live across loop iterations: the
static array `line`, the locals `c` and `p`, and stdout. -/
structure print_state where
  line : Nat → Nat
  c : Int
  p : Nat
  out : List Nat

/-- Body of the loop over the columns `j` of row `i` (peep.c 200-229). -/
def column_step (g : Globals) (cnsl : console) (i : Nat) (st : print_state) (j : Nat) :
    print_state :=
  let data := cell_data (cnsl.chars i j)
  let attr := cell_attr cnsl.mask (cnsl.chars i j)
  let st :=
    if ¬ cnsl.flags.plain then
      if j = 0 then { st with c := attr }
      else if attr ≠ st.c then
        let r := console_print_buffer g cnsl st.line st.p st.c st.out
        { line := r.1, c := attr, p := 0, out := r.2 }
      else st
    else st
  { st with line := Function.update st.line st.p data, p := st.p + 1 }

/-- End of the body of the loop over the rows (peep.c 231-233): the pending
text is printed and the row is closed with a line break. -/
def row_finish (g : Globals) (cnsl : console) (st : print_state) : print_state :=
  let st :=
    if st.p > 0 then
      let r := console_print_buffer g cnsl st.line st.p st.c st.out
      { st with line := r.1, out := r.2 }
    else st
  { st with out := st.out ++ [10] }

/-- Body of the loop over the rows `i` (peep.c 198-233). -/
def row_step (g : Globals) (cnsl : console) (st : print_state) (i : Nat) : print_state :=
  let st := { st with p := 0 }
  let st := (List.range cnsl.attributes.columns).foldl (column_step g cnsl i) st
  row_finish g cnsl st

/-- The function `console_print (cnsl)`.  `line` is the content of the static
line buffer and `c0` the indeterminate start value of the local `c`; the
result is the console, the line buffer and stdout after the call. -/
def console_print (g : Globals) (cnsl : console) (line : Nat → Nat) (c0 : Int)
    (out : List Nat) : console × (Nat → Nat) × List Nat :=
  let out :=
    if cnsl.flags.printed then
      out ++ (bytes "\x1b[" ++ decimal cnsl.attributes.lines ++ bytes "F")
    else out
  let st := (List.range cnsl.attributes.lines).foldl (row_step g cnsl)
    { line := line, c := c0, p := 0, out := out }
  ({ cnsl with flags := { cnsl.flags with printed := true } }, st.line, st.out)

/-! ## Reading a frame (peep.c 95-128) -/

/-- The vcsa device behind `cnsl->vfd`: `read s size` is the list of bytes one
`read (vfd, dst, size)` call delivers in device state `s` (its return value
is the length of the list) together with the next state; `rewind` is the
effect of `lseek (vfd, SEEK_SET, 0)`: offset `SEEK_SET`, which is 0, from
whence 0, which is `SEEK_SET`, so the offset becomes 0. -/
structure Device (σ : Type) where
  read : σ → Nat → List Nat × σ
  rewind : σ → σ

/-- The function `console_read_core (cnsl, dst, size)`: the bytes stored at
`dst` and the next device state, or `none` when `ret < size`. -/
def console_read_core {σ : Type} (D : Device σ) (dev : σ) (size : Nat) :
    Option (List Nat × σ) :=
  let r := D.read dev size
  if (r.1.length : Int) < (size : Int) then none else some r

/-- A row of `cnsl->chars` after `columns * 2` bytes were stored at its start
(little-endian host): cell `j` is made of the bytes `2j` and `2j+1`. -/
def store_row (row : Nat → Nat) (columns : Nat) (bs : List Nat) : Nat → Nat :=
  fun j => if j < columns then bs.getD (2 * j) 0 + 256 * bs.getD (2 * j + 1) 0 else row j

/-- Body of the loop over the rows in `console_read` (peep.c 120-121). -/
def read_row {σ : Type} (D : Device σ) (s : console × σ) (i : Nat) : Option (console × σ) :=
  match console_read_core D s.2 (s.1.attributes.columns * 2) with
  | none => none
  | some r =>
    some ({ s.1 with chars :=
              Function.update s.1.chars i (store_row (s.1.chars i) s.1.attributes.columns r.1) },
          r.2)

/-- The function `console_read (cnsl)`; `sizeof (struct console_attributes)`
is 4. -/
def console_read {σ : Type} (D : Device σ) (cnsl : console) (dev : σ) : Option (console × σ) :=
  match console_read_core D dev 4 with
  | none => none
  | some r =>
    let cnsl := { cnsl with attributes :=
      { lines := r.1.getD 0 0, columns := r.1.getD 1 0, x := r.1.getD 2 0, y := r.1.getD 3 0 } }
    match (List.range cnsl.attributes.lines).foldlM (read_row D) (cnsl, r.2) with
    | none => none
    | some s => some (s.1, if cnsl.flags.watch then D.rewind s.2 else s.2)

/-- A device that is a fixed byte sequence read from an offset, as a regular
file is; `nread` counts the bytes delivered so far. -/
structure file_dev where
  data : List Nat
  pos : Nat
  nread : Nat

/-- The device of a byte sequence: a read delivers the next `size` bytes, or
as many as are left. -/
def file_device : Device file_dev where
  read := fun s size =>
    let bs := (s.data.drop s.pos).take size
    (bs, { s with pos := s.pos + bs.length, nread := s.nread + bs.length })
  rewind := fun s => { s with pos := 0 }

/-! ## console_open and main (peep.c 67-93, 245-315) -/

/-- The function `console_open (cnsl, num)`.  `vfd` and `tfd` are the results
of the two `open` calls, `ioctl_ret` the result of the `ioctl` call and
`hifontmask` the value it stores in `cnsl->mask`. -/
def console_open (cnsl : console) (num : Int) (vfd tfd ioctl_ret : Int) (hifontmask : Nat) :
    Option console :=
  if u32 num &&& u32 (~~~ (0x3f : Int)) ≠ 0 then none
  else if vfd < 0 then none
  else if tfd < 0 then none
  else if ioctl_ret ≠ 0 then none
  else some { cnsl with vfd := vfd, tfd := tfd, mask := hifontmask }

/-- Body of the option loop of `main` for the option character `ch` that
`getopt` returned (peep.c 263-277). -/
def main_option (s : Globals × console) (ch : Char) : Option (Globals × console) :=
  if ch = 'l' then
    some ({ ansi_fg_color := s.1.ansi_fg_color.set 7 (bytes "39"),
            ansi_bg_color := s.1.ansi_bg_color.set 0 (bytes "49") },
          { s.2 with flags := { s.2.flags with light := true } })
  else if ch = 'p' then
    some (s.1, { s.2 with flags := { s.2.flags with plain := true } })
  else if ch = 'w' then
    some (s.1, { s.2 with flags := { s.2.flags with watch := true } })
  else none

/-- Start of `main` (peep.c 252-288): `console_init`, the option loop over the
characters `opts` that `getopt` returns, and the override for an output that
is not a terminal (`isatty` false). -/
def main_setup (opts : List Char) (isatty : Bool) : Option (Globals × console) :=
  match opts.foldlM main_option (Globals.initial, console_init) with
  | none => none
  | some s =>
    if isatty = false then
      some (s.1, { s.2 with flags := { s.2.flags with plain := true, watch := false } })
    else some s

/-- How a run of the program ends: the process exited with a status, or the
watch loop was still running when the fuel of the model ran out.  Both carry
the bytes written to stdout. -/
inductive outcome where
  | exited (status : Nat) (out : List Nat)
  | running (out : List Nat)
deriving DecidableEq

/-- The loop `for (;;)` of `main` (peep.c 304-312); `fuel` bounds the number
of iterations the model follows.  The device state after `sleep (1)` is the
one the previous iteration left. -/
def main_loop {σ : Type} (D : Device σ) (g : Globals) :
    Nat → console → (Nat → Nat) → List Nat → σ → outcome
  | 0, _, _, out, _ => outcome.running out
  | fuel + 1, cnsl, line, out, dev =>
    match console_read D cnsl dev with
    | none => outcome.exited 1 out
    | some s =>
      let r := console_print g s.1 line 0 out
      if ¬ r.1.flags.watch then outcome.exited 0 r.2.2
      else main_loop D g fuel r.1 r.2.1 r.2.2 s.2

/-- What the operating system supplies to one run of `main`: the option
characters, whether stdout is a terminal, the number `atoi` reads from the
tty argument (`none` when the argument is missing or has no digit), the
results of `open` and `ioctl`, and the device. -/
structure environment (σ : Type) where
  opts : List Char
  isatty : Bool
  tty : Option Int
  vfd : Int
  tfd : Int
  ioctl_ret : Int
  hifontmask : Nat
  dev : σ

/-- The function `main`, followed for at most `fuel` iterations of its loop. -/
def main {σ : Type} (D : Device σ) (env : environment σ) (fuel : Nat) : outcome :=
  match main_setup env.opts env.isatty with
  | none => outcome.exited 1 []
  | some s =>
    match env.tty with
    | none => outcome.exited 1 []
    | some num =>
      match console_open s.2 num env.vfd env.tfd env.ioctl_ret env.hifontmask with
      | none => outcome.exited 1 []
      | some cnsl => main_loop D s.1 fuel cnsl (fun _ => 0) [] env.dev

/-! ## The program with every array access checked

The same functions as above, but every read or write of an array element is
guarded by the size of the array as declared in `peep.c`: `line` has
`MAX_COLUMNS + 1` bytes, `cnsl->chars` has `MAX_LINES` rows of `MAX_COLUMNS`
cells of two bytes, `cnsl->attributes` has 4 bytes, and the three tables
have as many entries as their lists. -/

/-- Result of a function of the checked program: it completed with every
access inside its array, or it ended the process with `err`, or it reached
an access outside an array. -/
inductive checked (α : Type) where
  | ok (a : α)
  | fatal
  | overflow

/-- Sequencing of checked steps: the first result that is not `ok` ends the
computation. -/
def checked.bind {α β : Type} : checked α → (α → checked β) → checked β
  | checked.ok a, f => f a
  | checked.fatal, _ => checked.fatal
  | checked.overflow, _ => checked.overflow

/-- A `for` loop over the list of its index values, with a checked body. -/
def fold_checked {α β : Type} (f : β → α → checked β) : List α → β → checked β
  | [], b => checked.ok b
  | a :: l, b => (f b a).bind (fold_checked f l)

/-- The table element `tbl[k]`, checked against the length of the table. -/
def table_at {α : Type} (tbl : List α) (k : Nat) : checked α :=
  match tbl[k]? with
  | some a => checked.ok a
  | none => checked.overflow

/-- The result of an operation that can only complete or end the process. -/
def checked.of_option {α : Type} : Option α → checked α
  | some a => checked.ok a
  | none => checked.fatal

/-- Checked `c_string`: `printf` reads `buffer[k]`, `buffer[k+1]`, .. up to
the first NUL; `fuel` is the number of bytes of the array from index `k` on,
so running out of fuel is a read past the end of the array. -/
def c_string_checked (buffer : Nat → Nat) : Nat → Nat → checked (List Nat)
  | 0, _ => checked.overflow
  | fuel + 1, k =>
    if buffer k = 0 then checked.ok []
    else (c_string_checked buffer fuel (k + 1)).bind (fun t => checked.ok (buffer k :: t))

/-- Checked `trim_loop`: each pass reads `buffer[n - 1]`. -/
def trim_loop_checked (buffer : Nat → Nat) : Nat → checked Nat
  | 0 => checked.ok 0
  | n + 1 =>
    if n < MAX_COLUMNS + 1 then
      if buffer n ≠ 32 then checked.ok (n + 1) else trim_loop_checked buffer n
    else checked.overflow

/-- Checked `console_print_buffer`: the writes `buffer[n] = '\0'`, the reads
of the trimming loop and of `printf`, and the table lookups are guarded. -/
def console_print_buffer_checked (g : Globals) (cnsl : console) (buffer : Nat → Nat) (n : Nat)
    (attr : Int) (out : List Nat) : checked ((Nat → Nat) × List Nat) :=
  if n < MAX_COLUMNS + 1 then
    let buffer := Function.update buffer n 0
    if cnsl.flags.plain then
      (trim_loop_checked buffer n).bind fun n =>
        if n < MAX_COLUMNS + 1 then
          let buffer := Function.update buffer n 0
          (c_string_checked buffer (MAX_COLUMNS + 1) 0).bind fun text =>
            checked.ok (buffer, out ++ text)
        else checked.overflow
    else
      (table_at reverse_bits (bits attr 0 3)).bind fun fi =>
      (table_at g.ansi_fg_color fi).bind fun fg =>
      (table_at reverse_bits (bits attr 4 3)).bind fun bi =>
      (table_at g.ansi_bg_color bi).bind fun bg =>
      let bold := if bold_bit attr ≠ 0 then bytes ";1" else bytes ""
      (c_string_checked buffer (MAX_COLUMNS + 1) 0).bind fun text =>
        checked.ok (buffer, out ++ printf_colored fg bg bold text)
  else checked.overflow

/-- Checked `column_step`: the read of `cnsl->chars[i][j]` and the write
`line[p++] = data` are guarded. -/
def column_step_checked (g : Globals) (cnsl : console) (i : Nat) (st : print_state) (j : Nat) :
    checked print_state :=
  if i < MAX_LINES ∧ j < MAX_COLUMNS then
    let data := cell_data (cnsl.chars i j)
    let attr := cell_attr cnsl.mask (cnsl.chars i j)
    let st1 : checked print_state :=
      if ¬ cnsl.flags.plain then
        if j = 0 then checked.ok { st with c := attr }
        else if attr ≠ st.c then
          (console_print_buffer_checked g cnsl st.line st.p st.c st.out).bind fun r =>
            checked.ok { line := r.1, c := attr, p := 0, out := r.2 }
        else checked.ok st
      else checked.ok st
    st1.bind fun st =>
      if st.p < MAX_COLUMNS + 1 then
        checked.ok { st with line := Function.update st.line st.p data, p := st.p + 1 }
      else checked.overflow
  else checked.overflow

/-- Checked `row_finish`. -/
def row_finish_checked (g : Globals) (cnsl : console) (st : print_state) : checked print_state :=
  let st1 : checked print_state :=
    if st.p > 0 then
      (console_print_buffer_checked g cnsl st.line st.p st.c st.out).bind fun r =>
        checked.ok { st with line := r.1, out := r.2 }
    else checked.ok st
  st1.bind fun st => checked.ok { st with out := st.out ++ [10] }

/-- Checked `row_step`. -/
def row_step_checked (g : Globals) (cnsl : console) (st : print_state) (i : Nat) :
    checked print_state :=
  (fold_checked (column_step_checked g cnsl i) (List.range cnsl.attributes.columns)
    { st with p := 0 }).bind (row_finish_checked g cnsl)

/-- Checked `console_print`. -/
def console_print_checked (g : Globals) (cnsl : console) (line : Nat → Nat) (c0 : Int)
    (out : List Nat) : checked (console × (Nat → Nat) × List Nat) :=
  let out :=
    if cnsl.flags.printed then
      out ++ (bytes "\x1b[" ++ decimal cnsl.attributes.lines ++ bytes "F")
    else out
  (fold_checked (row_step_checked g cnsl) (List.range cnsl.attributes.lines)
    { line := line, c := c0, p := 0, out := out }).bind fun st =>
    checked.ok ({ cnsl with flags := { cnsl.flags with printed := true } }, st.line, st.out)

/-- Checked `console_read_core`: `read` stores at most `size` bytes at
`dst`, an object of `room` bytes. -/
def console_read_core_checked {σ : Type} (D : Device σ) (dev : σ) (size room : Nat) :
    checked (List Nat × σ) :=
  if size ≤ room then checked.of_option (console_read_core D dev size) else checked.overflow

/-- Checked `read_row`: the destination is the row `cnsl->chars[i]`, an
array of `MAX_COLUMNS` cells of two bytes. -/
def read_row_checked {σ : Type} (D : Device σ) (s : console × σ) (i : Nat) :
    checked (console × σ) :=
  if i < MAX_LINES then
    (console_read_core_checked D s.2 (s.1.attributes.columns * 2) (MAX_COLUMNS * 2)).bind fun r =>
      let row := store_row (s.1.chars i) s.1.attributes.columns r.1
      checked.ok ({ s.1 with chars := Function.update s.1.chars i row }, r.2)
  else checked.overflow

/-- Checked `console_read`: the destination of the first read is
`cnsl->attributes`, a struct of 4 bytes. -/
def console_read_checked {σ : Type} (D : Device σ) (cnsl : console) (dev : σ) :
    checked (console × σ) :=
  (console_read_core_checked D dev 4 4).bind fun r =>
    let cnsl := { cnsl with attributes :=
      { lines := r.1.getD 0 0, columns := r.1.getD 1 0, x := r.1.getD 2 0, y := r.1.getD 3 0 } }
    (fold_checked (read_row_checked D) (List.range cnsl.attributes.lines) (cnsl, r.2)).bind fun s =>
      checked.ok (s.1, if cnsl.flags.watch then D.rewind s.2 else s.2)

/-- Whether a checked result is an access outside an array. -/
def checked.is_overflow {α : Type} : checked α → Bool
  | checked.overflow => true
  | _ => false

/-! ## Definitions used to state the properties -/

/-- The foreground index, the background index and the bold flag of the
specification's data model. -/
structure DecodedAttribute where
  foreground : Nat
  background : Nat
  bold : Bool
deriving DecidableEq

/-- What `console_print_buffer` derives from the value `attr` it is given:
the two table indices and whether the bold suffix is chosen. -/
def decoded (attr : Int) : DecodedAttribute :=
  ⟨fg_index attr, bg_index attr, decide (bold_bit attr ≠ 0)⟩

/-- Reference decoding, after the specification's AttributeDecoder: mask the
raw attribute byte with the complement of the high byte of the font mask,
shift right logically by one more bit when the font mask is not zero, then
take bits 0-2, bit 3 and bits 4-6, the two colours through the bit-reversal
table. -/
def spec_decode (rawByte fontMask : Nat) : DecodedAttribute :=
  let maskedAttr := rawByte &&& (255 - (fontMask >>> 8) % 256)
  let maskedAttr := if fontMask ≠ 0 then maskedAttr >>> 1 else maskedAttr
  ⟨reverse_bits.getD (maskedAttr &&& 7) 0, reverse_bits.getD ((maskedAttr >>> 4) &&& 7) 0,
    decide ((maskedAttr >>> 3) &&& 1 = 1)⟩

/-- The first `n` bytes of a buffer. -/
def buf_take (buffer : Nat → Nat) (n : Nat) : List Nat := (List.range n).map buffer

/-- A byte sequence cut before its first NUL. -/
def c_cut (l : List Nat) : List Nat := l.takeWhile (fun b => decide (b ≠ 0))

/-- A byte sequence without its trailing spaces. -/
def rtrim (l : List Nat) : List Nat := (l.reverse.dropWhile (fun b => decide (b = 32))).reverse

/-- The cells of row `i` in column order, each as the pair of the `attr` value
and the character byte that `console_print` computes for it. -/
def row_cells (cnsl : console) (i : Nat) : List (Int × Nat) :=
  (List.range cnsl.attributes.columns).map
    (fun j => (cell_attr cnsl.mask (cnsl.chars i j), cell_data (cnsl.chars i j)))

/-- The character bytes of row `i` in column order. -/
def row_chars (cnsl : console) (i : Nat) : List Nat :=
  (List.range cnsl.attributes.columns).map (fun j => cell_data (cnsl.chars i j))

/-- The decoded attribute of the cell in row `i`, column `j`. -/
def cell_decoded (cnsl : console) (i j : Nat) : DecodedAttribute :=
  decoded (cell_attr cnsl.mask (cnsl.chars i j))

/-- Left-to-right grouping of cells: the open run has attribute `c` and
characters `pend`; a cell whose `attr` value differs from `c` closes it. -/
def runs_from (c : Int) (pend : List Nat) : List (Int × Nat) → List (Int × List Nat)
  | [] => [(c, pend)]
  | x :: l =>
    if x.1 ≠ c then (c, pend) :: runs_from x.1 [x.2] l else runs_from c (pend ++ [x.2]) l

/-- The runs of a row: each is an `attr` value with the characters of its
cells. -/
def runs : List (Int × Nat) → List (Int × List Nat)
  | [] => []
  | x :: l => runs_from x.1 [x.2] l

/-- The columns at which the runs start, the first run starting at `off`. -/
def run_starts (off : Nat) : List (Int × List Nat) → List Nat
  | [] => []
  | r :: rs => off :: run_starts (off + r.2.length) rs

/-- The number of adjacent pairs of a list whose members differ. -/
def changes {α : Type} [DecidableEq α] : List α → Nat
  | a :: b :: l => (if a ≠ b then 1 else 0) + changes (b :: l)
  | _ => 0

/-- One colour-escape block: the colour-start escape for the `attr` value
of a run, the text, the colour-reset escape. -/
def block (g : Globals) (attr : Int) (text : List Nat) : List Nat :=
  printf_colored (g.ansi_fg_color.getD (fg_index attr) []) (g.ansi_bg_color.getD (bg_index attr) [])
    (if bold_bit attr ≠ 0 then bytes ";1" else bytes "") text

/-- The output for row `i`: in plain mode the trimmed characters as a C
string, otherwise one block per run with the run's characters as a C string;
then the line break. -/
def row_output (g : Globals) (cnsl : console) (i : Nat) : List Nat :=
  (if cnsl.flags.plain then c_cut (rtrim (row_chars cnsl i))
   else (runs (row_cells cnsl i)).flatMap (fun r => block g r.1 (c_cut r.2))) ++ [10]

/-- The cursor-reposition escape for a frame of `n` rows. -/
def reposition (n : Nat) : List Nat := bytes "\x1b[" ++ decimal n ++ bytes "F"

/-- The output for all rows of the frame. -/
def frame_output (g : Globals) (cnsl : console) : List Nat :=
  (List.range cnsl.attributes.lines).flatMap (row_output g cnsl)

/-- The foreground code of the specification's ColorMapper: the
terminal-default code 39 in light mode for index 7, else 30 plus the index
in decimal. -/
def spec_fg_code (light : Bool) (f : Nat) : List Nat :=
  if light = true ∧ f = 7 then bytes "39" else decimal (30 + f)

/-- The background code of the specification's ColorMapper: the
terminal-default code 49 in light mode for index 0, else 40 plus the index
in decimal. -/
def spec_bg_code (light : Bool) (b : Nat) : List Nat :=
  if light = true ∧ b = 0 then bytes "49" else decimal (40 + b)

/-- The bold suffix of the specification's ColorMapper. -/
def spec_bold_suffix (bold : Bool) : List Nat := if bold = true then bytes ";1" else []

/-- The two states the colour tables can be in: as initialised, or with the
entries that option `-l` overwrites. -/
def tables_for (light : Bool) : Globals :=
  if light = true then
    { ansi_fg_color := Peep.ansi_fg_color.set 7 (bytes "39"),
      ansi_bg_color := Peep.ansi_bg_color.set 0 (bytes "49") }
  else Globals.initial

/-- The device state in which row `k` of a frame is read when every earlier
row read of `size` bytes went through; `dev1` is the state after the header
read. -/
def dev_at_row {σ : Type} (D : Device σ) (size : Nat) (dev1 : σ) (k : Nat) : σ :=
  Nat.iterate (fun s => (D.read s size).2) k dev1

/-- The text of the rows of a frame in plain mode, each followed by its line
break. -/
def plain_text (cnsl : console) : List Nat :=
  (List.range cnsl.attributes.lines).flatMap (fun i => c_cut (rtrim (row_chars cnsl i)) ++ [10])

/-- The output for row `i` before its line break: in plain mode the trimmed
characters as a C string, otherwise one block per run. -/
def row_body (g : Globals) (cnsl : console) (i : Nat) : List Nat :=
  if cnsl.flags.plain then c_cut (rtrim (row_chars cnsl i))
  else (runs (row_cells cnsl i)).flatMap (fun r => block g r.1 (c_cut r.2))

/-- The cells a list of runs stands for: every character of a run paired
with the run's `attr` value. -/
def run_cells (rs : List (Int × List Nat)) : List (Int × Nat) :=
  rs.flatMap (fun r => r.2.map (fun d => (r.1, d)))

/-- The range of a 32-bit `int`. -/
def int_range (n : Int) : Prop := -2147483648 ≤ n ∧ n ≤ 2147483647

/-! ## Example inputs -/

/-- A console with the given flags, mask, dimensions and cells, everything
else as `console_init` leaves it. -/
def frame (flags : console_flags) (mask lines columns : Nat) (chars : Nat → Nat → Nat) : console :=
  { console_init with
    attributes := { lines := lines, columns := columns, x := 0, y := 0 },
    flags := flags, mask := mask, chars := chars }

/-- The flags of the default configuration: nothing printed yet, no option. -/
def flags_default : console_flags := ⟨false, false, false, false⟩

/-- The flags of plain mode before the first render. -/
def flags_plain : console_flags := ⟨false, false, true, false⟩

/-- The variables of `console_print` at the start of a first call: the static
line buffer is zeroed. -/
def print_start : print_state := { line := fun _ => 0, c := 0, p := 0, out := [] }

/-- One row of two cells, font mask 0: `A` with attribute byte 0x07 and `B`
with attribute byte 0x87, which differ in bit 7 only. -/
def blink_frame : console :=
  frame flags_default 0 1 2 (fun _ j => if j = 0 then 0x0741 else 0x8742)

/-- One row of six cells, font mask 0x0100: `abc` with attribute byte 0x0e,
then `xyz` with attribute byte 0x9e. -/
def two_run_frame : console :=
  frame flags_default 0x0100 1 6
    (fun _ j => if j = 0 then 0x0e61 else if j = 1 then 0x0e62 else if j = 2 then 0x0e63
      else if j = 3 then 0x9e78 else if j = 4 then 0x9e79 else 0x9e7a)

/-- Plain mode, one row of three cells: `A`, a NUL character, `B`. -/
def nul_frame : console :=
  frame flags_plain 0 1 3 (fun _ j => if j = 0 then 0x0741 else if j = 1 then 0x0700 else 0x0742)

/-- Plain mode, one row of five cells: `AB` followed by three spaces. -/
def ab_frame : console :=
  frame flags_plain 0 1 5 (fun _ j => if j = 0 then 0x0741 else if j = 1 then 0x0742 else 0x0720)

/-- Plain mode, one row of four cells: a leading space, `a`, an interior
space, `b`; no trailing space. -/
def indent_frame : console :=
  frame flags_plain 0 1 4 (fun _ j => if j = 1 then 0x0761 else if j = 3 then 0x0762 else 0x0720)

/-- Plain mode, one row of four spaces. -/
def blank_frame : console :=
  frame flags_plain 0 1 4 (fun _ _ => 0x0720)

/-- The console after `console_init` and option `-l`. -/
def light_console : console :=
  { console_init with flags := { printed := false, light := true, plain := false, watch := false } }

/-- A run of `peep 1` on a terminal whose device ends right after a header
that declares 5 rows and 1 column. -/
def short_env : environment file_dev :=
  { opts := [], isatty := true, tty := some 1, vfd := 3, tfd := 4, ioctl_ret := 0,
    hifontmask := 0, dev := { data := [5, 1, 0, 0], pos := 0, nread := 0 } }

/-- A frame of 2 rows and 2 columns in the binary format: the header, then
the cells `A`, `B`, `C`, `D` with the attribute bytes 7, 7, 8, 9. -/
def sample_bytes : List Nat := [2, 2, 1, 0, 65, 7, 66, 7, 67, 8, 68, 9]

/-- Non-plain mode, nothing printed yet, one row of two cells `hi` with
attribute byte 0x07. -/
def hi_frame : console :=
  frame flags_default 0 1 2 (fun _ j => if j = 0 then 0x0768 else 0x0769)

/-- Plain mode with watch, a frame already printed: one row with the single
cell `A`. -/
def plain_again_frame : console :=
  frame { printed := true, light := false, plain := true, watch := true } 0 1 1 (fun _ _ => 0x0741)

/-- A run of `peep -p -w 1` on a terminal; the device holds a frame of one
row with the single cell `A`. -/
def plain_watch_env : environment file_dev :=
  { opts := ['p', 'w'], isatty := true, tty := some 1, vfd := 3, tfd := 4, ioctl_ret := 0,
    hifontmask := 0, dev := { data := [1, 1, 0, 0, 65, 7], pos := 0, nread := 0 } }

/-- A run of `peep 1` with stdout redirected to a file; the device holds a
frame of one row with the cells `A`, a space, `B` and a space. -/
def pipe_env : environment file_dev :=
  { opts := ['w'], isatty := false, tty := some 1, vfd := 3, tfd := 4, ioctl_ret := 0,
    hifontmask := 0, dev := { data := [1, 4, 0, 0, 65, 7, 32, 7, 66, 0x1f, 32, 7], pos := 0, nread := 0 } }

/-- The console after `console_init` when stdout is not a terminal. -/
def pipe_console : console :=
  { console_init with flags := { printed := false, light := false, plain := true, watch := false } }

/-- The frame of `pipe_env` as a console in the forced plain configuration. -/
def pipe_frame : console :=
  frame pipe_console.flags 0 1 4
    (fun _ j => if j = 0 then 0x0741 else if j = 2 then 0x1f42 else 0x0720)

/-- The frame of `hi_frame` in a console that differs outside the frame: the
cursor is at (5, 7), the other flags are set, and the cells beyond the first
row and the first two columns hold what an earlier, larger frame left. -/
def hi_frame_dirty : console :=
  { vfd := 3, tfd := 4, printed := 0,
    attributes := { lines := 1, columns := 2, x := 5, y := 7 },
    flags := { printed := false, light := true, plain := false, watch := true },
    mask := 0,
    chars := fun i j => if i = 0 ∧ j = 0 then 0x0768 else if i = 0 ∧ j = 1 then 0x0769 else 0x4e58 }

/-- Non-plain mode, three rows without columns. -/
def empty_rows_frame : console := frame flags_default 0 3 0 (fun _ _ => 0x0741)

/-- Non-plain mode, one row of four cells: `A`, a NUL character, `B` and a
space, all with attribute byte 0x07. -/
def nul_colored_frame : console :=
  frame flags_default 0 1 4
    (fun _ j => if j = 0 then 0x0741 else if j = 1 then 0x0700 else if j = 2 then 0x0742 else 0x0720)

/-- A frame of the largest size, 255 rows of 255 columns, each cell `A` with
attribute byte equal to the low byte of its column number. -/
def full_frame : console :=
  frame flags_default 0x0100 255 255 (fun _ j => 256 * (j % 256) + 65)

/-- A console whose column count, 256, is more than an `unsigned char`
holds: one row of cells `A`. -/
def wide_frame : console := frame flags_plain 0 1 256 (fun _ _ => 0x0741)


/-! ## Attribute decoding -/

theorem u32_not (m : Nat) (hm : m < 65536) : u32 (~~~ (m : Int)) = 4294967295 - m := by
  have h : ~~~ (m : Int) = -(m : Int) - 1 := by
    show Int.negSucc m = _
    rw [Int.negSucc_eq]; ring
  unfold u32
  rw [h]
  omega

theorem masked_high_byte (v m : Nat) (hv : v < 65536) (hm : m < 65536) :
    (v &&& u32 (~~~ (m : Int))) >>> 8 = (v >>> 8) &&& (255 - (m >>> 8) % 256) := by
  rw [u32_not m hm]
  have hm8 : m >>> 8 < 2 ^ 8 := by
    rw [Nat.shiftRight_eq_div_pow]; omega
  have e1 : 4294967295 - m = 2 ^ 32 - (m + 1) := by omega
  have e2 : 255 - (m >>> 8) % 256 = 2 ^ 8 - (m >>> 8 + 1) := by
    rw [Nat.mod_eq_of_lt (by simpa using hm8)]; omega
  rw [e1, e2]
  apply Nat.eq_of_testBit_eq
  intro i
  have hm32 : m < 2 ^ 32 := by omega
  rw [Nat.testBit_shiftRight, Nat.testBit_and, Nat.testBit_and, Nat.testBit_shiftRight,
    Nat.testBit_two_pow_sub_succ hm32, Nat.testBit_two_pow_sub_succ hm8, Nat.testBit_shiftRight]
  by_cases hi : i < 8
  · have : 8 + i < 32 := by omega
    simp [hi, this]
  · have hv2 : v < 2 ^ (8 + i) := by
      calc v < 2 ^ 16 := by omega
        _ ≤ 2 ^ (8 + i) := Nat.pow_le_pow_right (by norm_num) (by omega)
    simp [Nat.testBit_lt_two_pow hv2]

set_option maxRecDepth 1000000 in
theorem decode_byte : ∀ a : Fin 256, ∀ nz : Bool,
    decoded (if nz = true then to_char (to_char (a.val : Int) >>> (1 : Nat))
      else to_char (a.val : Int)) =
      (let x := if nz = true then a.val >>> 1 else a.val
       (⟨reverse_bits.getD (x &&& 7) 0, reverse_bits.getD ((x >>> 4) &&& 7) 0,
          decide ((x >>> 3) &&& 1 = 1)⟩ : DecodedAttribute)) := by
  decide

theorem decoded_cell_attr (v m : Nat) (hv : v < 65536) (hm : m < 65536) :
    decoded (cell_attr m v) = spec_decode (v >>> 8) m := by
  have hlt : (v >>> 8) &&& (255 - (m >>> 8) % 256) < 256 :=
    lt_of_le_of_lt Nat.and_le_right (by omega)
  have h := decode_byte ⟨(v >>> 8) &&& (255 - (m >>> 8) % 256), hlt⟩ (decide (m ≠ 0))
  unfold cell_attr spec_decode
  rw [masked_high_byte v m hv hm]
  by_cases hz : m = 0
  · simpa [hz] using h
  · simpa [hz] using h

/-! ## The line buffer -/

theorem buf_take_succ (b : Nat → Nat) (n : Nat) : buf_take b (n + 1) = buf_take b n ++ [b n] := by
  simp [buf_take, List.range_succ]

theorem buf_take_update (b : Nat → Nat) (n k x : Nat) (h : n ≤ k) :
    buf_take (Function.update b k x) n = buf_take b n := by
  unfold buf_take
  apply List.map_congr_left
  intro j hj
  have hlt : j < n := List.mem_range.mp hj
  have hne : j ≠ k := by omega
  exact Function.update_noteq hne x b

theorem c_string_range (b : Nat → Nat) :
    ∀ (n fuel k : Nat), b (k + n) = 0 → n < fuel →
      c_string b fuel k = c_cut ((List.range' k n).map b) := by
  intro n
  induction n with
  | zero =>
    intro fuel k hz hf
    obtain ⟨f, rfl⟩ : ∃ f, fuel = f + 1 := ⟨fuel - 1, by omega⟩
    simp at hz
    simp [c_string, hz, c_cut]
  | succ n ih =>
    intro fuel k hz hf
    obtain ⟨f, rfl⟩ : ∃ f, fuel = f + 1 := ⟨fuel - 1, by omega⟩
    have h := ih f (k + 1) (by rw [← hz]; congr 1; omega) (by omega)
    by_cases hb : b k = 0
    · simp [c_string, hb, c_cut, List.range'_succ]
    · simp only [c_string, hb, if_false, List.range'_succ, List.map_cons, c_cut]
      rw [List.takeWhile_cons_of_pos (by simpa using hb), h]
      rfl

theorem c_string_take (b : Nat → Nat) (n fuel : Nat) (hz : b n = 0) (hf : n < fuel) :
    c_string b fuel 0 = c_cut (buf_take b n) := by
  have h := c_string_range b n fuel 0 (by simpa using hz) hf
  rw [h, buf_take, List.range_eq_range']

theorem rtrim_concat (l : List Nat) (x : Nat) :
    rtrim (l ++ [x]) = if x = 32 then rtrim l else l ++ [x] := by
  unfold rtrim
  by_cases h : x = 32
  · simp [h, List.dropWhile_cons]
  · simp [h, List.dropWhile_cons]

theorem trim_loop_le (b : Nat → Nat) (n : Nat) : trim_loop b n ≤ n := by
  induction n with
  | zero => simp [trim_loop]
  | succ n ih =>
    unfold trim_loop
    split <;> omega

theorem trim_loop_take (b : Nat → Nat) (n : Nat) :
    buf_take b (trim_loop b n) = rtrim (buf_take b n) := by
  induction n with
  | zero => simp [trim_loop, buf_take, rtrim]
  | succ n ih =>
    rw [buf_take_succ, rtrim_concat]
    unfold trim_loop
    by_cases h : b n = 32
    · simp [h, ih]
    · simp [h, buf_take_succ]

theorem console_print_buffer_out (g : Globals) (cnsl : console) (b : Nat → Nat) (n : Nat)
    (attr : Int) (out : List Nat) (hn : n ≤ 255) :
    (console_print_buffer g cnsl b n attr out).2 =
      out ++ (if cnsl.flags.plain then c_cut (rtrim (buf_take b n))
              else block g attr (c_cut (buf_take b n))) := by
  unfold console_print_buffer
  by_cases hp : cnsl.flags.plain = true
  · simp only [hp, if_true]
    have hle := trim_loop_le (Function.update b n 0) n
    rw [c_string_take _ (trim_loop (Function.update b n 0) n) _ (Function.update_same _ _ _)
      (by unfold MAX_COLUMNS; omega)]
    rw [buf_take_update _ _ _ _ (le_refl _), trim_loop_take, buf_take_update _ _ _ _ (le_refl _)]
  · simp only [hp, if_false]
    rw [c_string_take _ n _ (Function.update_same _ _ _) (by unfold MAX_COLUMNS; omega)]
    rw [buf_take_update _ _ _ _ (le_refl _)]
    rfl

/-! ## The loops of console_print -/

theorem fold_columns_plain (g : Globals) (cnsl : console) (i : Nat)
    (hp : cnsl.flags.plain = true) :
    ∀ (l : List Nat) (st : print_state),
      (l.foldl (column_step g cnsl i) st).p = st.p + l.length ∧
      (l.foldl (column_step g cnsl i) st).out = st.out ∧
      buf_take (l.foldl (column_step g cnsl i) st).line (st.p + l.length) =
        buf_take st.line st.p ++ l.map (fun j => cell_data (cnsl.chars i j)) := by
  intro l
  induction l with
  | nil => intro st; simp
  | cons j l ih =>
    intro st
    have h := ih (column_step g cnsl i st j)
    have e1 : (column_step g cnsl i st j).p = st.p + 1 := by simp [column_step, hp]
    have e2 : (column_step g cnsl i st j).out = st.out := by simp [column_step, hp]
    have e3 : (column_step g cnsl i st j).line =
        Function.update st.line st.p (cell_data (cnsl.chars i j)) := by simp [column_step, hp]
    rw [e1, e2, e3] at h
    simp only [List.foldl_cons, List.length_cons, List.map_cons]
    have e4 : st.p + (l.length + 1) = st.p + 1 + l.length := by omega
    rw [e4]
    refine ⟨h.1, h.2.1, ?_⟩
    rw [h.2.2, buf_take_succ, buf_take_update _ _ _ _ (le_refl _), Function.update_same]
    simp

theorem fold_columns_colored (g : Globals) (cnsl : console) (i : Nat)
    (hp : cnsl.flags.plain = false) :
    ∀ (l : List Nat) (st : print_state), (∀ j ∈ l, j ≠ 0) → 0 < st.p → st.p + l.length ≤ 255 →
      (row_finish g cnsl (l.foldl (column_step g cnsl i) st)).out =
        st.out ++ (runs_from st.c (buf_take st.line st.p)
            (l.map (fun j => (cell_attr cnsl.mask (cnsl.chars i j), cell_data (cnsl.chars i j))))).flatMap
          (fun r => block g r.1 (c_cut r.2)) ++ [10] := by
  intro l
  induction l with
  | nil =>
    intro st _ hpos hle
    simp only [List.foldl_nil, List.map_nil, runs_from, row_finish, hpos, if_true]
    rw [console_print_buffer_out _ _ _ _ _ _ (by simpa using hle)]
    simp [hp]
  | cons j l ih =>
    intro st hj hpos hle
    have hj0 : j ≠ 0 := hj j (List.mem_cons_self _ _)
    have hl : ∀ k ∈ l, k ≠ 0 := fun k hk => hj k (List.mem_cons_of_mem _ hk)
    simp only [List.length_cons] at hle
    simp only [List.foldl_cons, List.map_cons, runs_from]
    by_cases hne : cell_attr cnsl.mask (cnsl.chars i j) = st.c
    · have e : column_step g cnsl i st j =
          { st with line := Function.update st.line st.p (cell_data (cnsl.chars i j)),
                    p := st.p + 1 } := by
        simp [column_step, hp, hj0, hne]
      rw [e, ih _ hl (by simp) (by simp; omega)]
      simp only [hne, ne_eq, not_true_eq_false, if_false]
      rw [buf_take_succ, buf_take_update _ _ _ _ (le_refl _), Function.update_same]
    · have e : column_step g cnsl i st j =
          { line := Function.update (console_print_buffer g cnsl st.line st.p st.c st.out).1 0
                      (cell_data (cnsl.chars i j)),
            c := cell_attr cnsl.mask (cnsl.chars i j), p := 1,
            out := (console_print_buffer g cnsl st.line st.p st.c st.out).2 } := by
        simp [column_step, hp, hj0, hne]
      rw [e, ih _ hl (by simp) (by simp; omega)]
      simp only [hne, ne_eq, not_false_eq_true, if_true]
      rw [console_print_buffer_out _ _ _ _ _ _ (by omega)]
      simp [hp, buf_take, List.range_succ]

theorem row_step_out (g : Globals) (cnsl : console) (st : print_state) (i : Nat)
    (hc : cnsl.attributes.columns ≤ 255) :
    (row_step g cnsl st i).out = st.out ++ row_output g cnsl i := by
  unfold row_step row_output
  by_cases hp : cnsl.flags.plain = true
  · have h := fold_columns_plain g cnsl i hp (List.range cnsl.attributes.columns)
      { st with p := 0 }
    simp only [List.length_range, Nat.zero_add] at h
    obtain ⟨h1, h2, h3⟩ := h
    simp only [hp, if_true, row_chars]
    unfold row_finish
    by_cases h0 : cnsl.attributes.columns = 0
    · simp [h0, rtrim, c_cut]
    · have hpos : (List.foldl (column_step g cnsl i) { st with p := 0 }
          (List.range cnsl.attributes.columns)).p > 0 := by rw [h1]; omega
      simp only [hpos, if_true]
      rw [console_print_buffer_out _ _ _ _ _ _ (by rw [h1]; exact hc)]
      simp only [hp, if_true]
      rw [h1, h3, h2]
      simp [buf_take]
  · have hp2 : cnsl.flags.plain = false := by simpa using hp
    simp only [hp, if_false, row_cells]
    cases hcol : cnsl.attributes.columns with
    | zero => simp [row_finish, runs]
    | succ n =>
      rw [hcol] at hc
      rw [List.range_eq_range', List.range'_succ]
      simp only [List.foldl_cons, List.map_cons, runs]
      have e : column_step g cnsl i { st with p := 0 } 0 =
          { line := Function.update st.line 0 (cell_data (cnsl.chars i 0)),
            c := cell_attr cnsl.mask (cnsl.chars i 0), p := 1, out := st.out } := by
        simp [column_step, hp2]
      rw [e, fold_columns_colored g cnsl i hp2 _ _ (by
        intro j hj
        have := (List.mem_range'_1.mp hj).1
        omega) (by simp) (by simp; omega)]
      simp [buf_take, List.range_succ]

theorem fold_rows_out (g : Globals) (cnsl : console) (hc : cnsl.attributes.columns ≤ 255) :
    ∀ (l : List Nat) (st : print_state),
      (l.foldl (row_step g cnsl) st).out = st.out ++ l.flatMap (row_output g cnsl) := by
  intro l
  induction l with
  | nil => intro st; simp
  | cons i l ih =>
    intro st
    simp only [List.foldl_cons, List.flatMap_cons]
    rw [ih, row_step_out g cnsl st i hc, List.append_assoc]

theorem console_print_out (g : Globals) (cnsl : console) (line : Nat → Nat) (c0 : Int)
    (out : List Nat) (hc : cnsl.attributes.columns ≤ 255) :
    (console_print g cnsl line c0 out).2.2 =
      out ++ (if cnsl.flags.printed then reposition cnsl.attributes.lines else []) ++
        frame_output g cnsl := by
  unfold console_print frame_output
  simp only []
  rw [fold_rows_out g cnsl hc]
  by_cases h : cnsl.flags.printed = true
  · simp [h, reposition]
  · simp [h]

theorem console_print_flags (g : Globals) (cnsl : console) (line : Nat → Nat) (c0 : Int)
    (out : List Nat) :
    (console_print g cnsl line c0 out).1 =
      { cnsl with flags := { cnsl.flags with printed := true } } := rfl

/-! ## Runs -/

theorem runs_from_texts (l : List (Int × Nat)) :
    ∀ (c : Int) (pend : List Nat),
      ((runs_from c pend l).map (fun r => r.2)).flatten = pend ++ l.map (fun x => x.2) := by
  induction l with
  | nil => intro c pend; simp [runs_from]
  | cons x l ih =>
    intro c pend
    unfold runs_from
    by_cases h : x.1 = c
    · simp [h, ih]
    · simp [h, ih]

theorem runs_from_nonempty (l : List (Int × Nat)) :
    ∀ (c : Int) (pend : List Nat), pend ≠ [] → ∀ r ∈ runs_from c pend l, r.2 ≠ [] := by
  induction l with
  | nil =>
    intro c pend hpend r hr
    simp [runs_from] at hr
    simpa [hr] using hpend
  | cons x l ih =>
    intro c pend hpend r hr
    unfold runs_from at hr
    by_cases h : x.1 = c
    · simp only [h, ne_eq, not_true_eq_false, if_false] at hr
      exact ih c (pend ++ [x.2]) (by simp) r hr
    · simp only [h, ne_eq, not_false_eq_true, if_true, List.mem_cons] at hr
      rcases hr with hr | hr
      · simpa [hr] using hpend
      · exact ih x.1 [x.2] (by simp) r hr

theorem runs_from_length (l : List (Int × Nat)) :
    ∀ (c : Int) (pend : List Nat),
      (runs_from c pend l).length = 1 + changes (c :: l.map (fun x => x.1)) := by
  induction l with
  | nil => intro c pend; simp [runs_from, changes]
  | cons x l ih =>
    intro c pend
    unfold runs_from
    by_cases h : x.1 = c
    · have hc : c ≠ x.1 → False := fun h2 => h2 h.symm
      simp only [h, ne_eq, not_true_eq_false, if_false, List.map_cons, changes]
      rw [ih]
      omega
    · have hc : c ≠ x.1 := fun h2 => h h2.symm
      simp only [h, ne_eq, not_false_eq_true, if_true, List.map_cons, changes, List.length_cons, hc]
      rw [ih]
      omega

theorem runs_from_starts (a : Nat → Int) (d : Nat → Nat) :
    ∀ (n s off : Nat) (c : Int) (pend : List Nat), s = off + pend.length → 1 ≤ pend.length →
      c = a (s - 1) → ∀ j,
        (j ∈ run_starts off (runs_from c pend ((List.range' s n).map (fun k => (a k, d k)))) ↔
          j = off ∨ (s ≤ j ∧ j < s + n ∧ a j ≠ a (j - 1))) := by
  intro n
  induction n with
  | zero =>
    intro s off c pend _ _ _ j
    simp [runs_from, run_starts]
    omega
  | succ n ih =>
    intro s off c pend hs hp hc j
    rw [List.range'_succ]
    simp only [List.map_cons, runs_from]
    by_cases h : a s = c
    · simp only [h, ne_eq, not_true_eq_false, if_false]
      rw [ih (s + 1) off c (pend ++ [d s]) (by simp; omega) (by simp) (by simp [h])]
      constructor
      · rintro (h1 | ⟨h1, h2, h3⟩)
        · exact Or.inl h1
        · exact Or.inr ⟨by omega, by omega, h3⟩
      · rintro (h1 | ⟨h1, h2, h3⟩)
        · exact Or.inl h1
        · by_cases hjs : j = s
          · exfalso; apply h3; rw [hjs, h, hc]
          · exact Or.inr ⟨by omega, by omega, h3⟩
    · simp only [h, ne_eq, not_false_eq_true, if_true, run_starts, List.mem_cons]
      rw [ih (s + 1) (off + pend.length) (a s) [d s] (by simp; omega) (by simp) (by simp)]
      constructor
      · rintro (h1 | h1 | ⟨h1, h2, h3⟩)
        · exact Or.inl h1
        · refine Or.inr ⟨by omega, by omega, ?_⟩
          have : j = s := by omega
          rw [this, ← hc]; exact h
        · exact Or.inr ⟨by omega, by omega, h3⟩
      · rintro (h1 | ⟨h1, h2, h3⟩)
        · exact Or.inl h1
        · by_cases hjs : j = s
          · exact Or.inr (Or.inl (by omega))
          · exact Or.inr (Or.inr ⟨by omega, by omega, h3⟩)

theorem row_runs_starts (cnsl : console) (i j : Nat) (h1 : 1 ≤ j)
    (hj : j < cnsl.attributes.columns) :
    j ∈ run_starts 0 (runs (row_cells cnsl i)) ↔
      cell_attr cnsl.mask (cnsl.chars i j) ≠ cell_attr cnsl.mask (cnsl.chars i (j - 1)) := by
  unfold row_cells
  obtain ⟨n, hn⟩ : ∃ n, cnsl.attributes.columns = n + 1 := ⟨cnsl.attributes.columns - 1, by omega⟩
  rw [hn, List.range_eq_range', List.range'_succ]
  simp only [List.map_cons, runs]
  rw [runs_from_starts (fun k => cell_attr cnsl.mask (cnsl.chars i k))
    (fun k => cell_data (cnsl.chars i k)) n 1 0 _ _ (by simp) (by simp) (by simp)]
  constructor
  · rintro (h | ⟨_, _, h⟩)
    · omega
    · exact h
  · intro h
    exact Or.inr ⟨by omega, by omega, h⟩

theorem row_runs_length (cnsl : console) (i : Nat) (hcol : 0 < cnsl.attributes.columns) :
    (runs (row_cells cnsl i)).length = 1 + changes ((row_cells cnsl i).map (fun x => x.1)) := by
  unfold row_cells
  obtain ⟨n, hn⟩ : ∃ n, cnsl.attributes.columns = n + 1 := ⟨cnsl.attributes.columns - 1, by omega⟩
  rw [hn, List.range_eq_range', List.range'_succ]
  simp only [List.map_cons, runs]
  rw [runs_from_length]

theorem changes_map_le {α β : Type} [DecidableEq α] [DecidableEq β] (f : α → β) :
    ∀ l : List α, changes (l.map f) ≤ changes l := by
  intro l
  induction l with
  | nil => simp [changes]
  | cons a l ih =>
    cases l with
    | nil => simp [changes]
    | cons b l =>
      simp only [List.map_cons, changes] at ih ⊢
      by_cases h : a = b
      · simp [h]; exact ih
      · by_cases h2 : f a = f b
        · simp [h, h2]; omega
        · simp [h, h2]; exact ih

theorem changes_map_eq {α β : Type} [DecidableEq α] [DecidableEq β] (f : α → β) :
    ∀ l : List α, (∀ a ∈ l, ∀ b ∈ l, f a = f b → a = b) → changes (l.map f) = changes l := by
  intro l
  induction l with
  | nil => simp [changes]
  | cons a l ih =>
    intro hinj
    cases l with
    | nil => simp [changes]
    | cons b l =>
      have ih2 := ih (fun x hx y hy => hinj x (List.mem_cons_of_mem _ hx) y (List.mem_cons_of_mem _ hy))
      simp only [List.map_cons, changes] at ih2 ⊢
      by_cases h : a = b
      · simp [h]; exact ih2
      · have h2 : f a ≠ f b := fun e =>
          h (hinj a (List.mem_cons_self _ _) b (List.mem_cons_of_mem _ (List.mem_cons_self _ _)) e)
        simp [h, h2]; exact ih2

theorem cell_attr_shifted_range (m v : Nat) (hm : m ≠ 0) :
    -64 ≤ cell_attr m v ∧ cell_attr m v ≤ 63 := by
  unfold cell_attr to_char
  simp only [hm, ne_eq, not_false_eq_true, if_true]
  rw [Int.shiftRight_eq_div_pow]
  omega

set_option maxRecDepth 1000000 in
theorem decoded_inverse : ∀ a : Fin 128,
    (a.val : Int) - 64 =
      ((reverse_bits.getD (decoded ((a.val : Int) - 64)).foreground 0 +
        (if (decoded ((a.val : Int) - 64)).bold = true then 8 else 0) +
        16 * reverse_bits.getD (decoded ((a.val : Int) - 64)).background 0 + 64) % 128 : Nat) - 64 := by
  decide

theorem decoded_injective (a b : Int) (ha : -64 ≤ a ∧ a ≤ 63) (hb : -64 ≤ b ∧ b ≤ 63)
    (h : decoded a = decoded b) : a = b := by
  have ea := decoded_inverse ⟨(a + 64).toNat, by omega⟩
  have eb := decoded_inverse ⟨(b + 64).toNat, by omega⟩
  have e1 : (((a + 64).toNat : Nat) : Int) - 64 = a := by omega
  have e2 : (((b + 64).toNat : Nat) : Int) - 64 = b := by omega
  simp only [e1, e2] at ea eb
  rw [ea, eb, h]
/-! ## C1: attribute decoding -/

/-- C1: for every 16-bit cell value `v` and 16-bit font mask `m`, the
foreground index, background index and bold flag that `console_print_buffer`
derives from the `attr` value `console_print` computes for the cell are those
of the reference decoding of the cell's high byte, although `attr` is a
signed `char` that is shifted arithmetically; and the colour-start escape
that `console_print_buffer` writes is built from the reference values. -/
theorem attribute_decoding_matches_reference (v m : Nat) (hv : v < 65536) (hm : m < 65536) :
    decoded (cell_attr m v) = spec_decode (v >>> 8) m ∧
    ∀ (g : Globals) (cnsl : console) (buffer : Nat → Nat) (n : Nat) (out : List Nat),
      cnsl.flags.plain = false →
      (console_print_buffer g cnsl buffer n (cell_attr m v) out).2 =
        out ++ printf_colored
          (g.ansi_fg_color.getD (spec_decode (v >>> 8) m).foreground [])
          (g.ansi_bg_color.getD (spec_decode (v >>> 8) m).background [])
          (if (spec_decode (v >>> 8) m).bold = true then bytes ";1" else bytes "")
          (c_string (Function.update buffer n 0) (MAX_COLUMNS + 1) 0) := by
  have h := decoded_cell_attr v m hv hm
  refine ⟨h, ?_⟩
  intro g cnsl buffer n out hp
  rw [← h]
  simp [console_print_buffer, hp, decoded]

/-- Witness for C1: with font mask 0x0100 the cell 0x1841 (attribute byte
0b00011000) decodes as the byte 0b00001100 does without mask, to foreground
index `reverse_bits[4] = 1`, background index 0 and bold, and not as the
unshifted byte does. -/
theorem attribute_decoding_witness :
    decoded (cell_attr 0x0100 0x1841) = spec_decode 0x18 0x0100 ∧
    spec_decode 0x18 0x0100 = spec_decode 0x0c 0 ∧
    spec_decode 0x18 0x0100 = ⟨1, 0, true⟩ ∧
    spec_decode 0x18 0 = ⟨0, 4, true⟩ :=
  ⟨(attribute_decoding_matches_reference 0x1841 0x0100 (by decide) (by decide)).1,
    by decide, by decide, by decide⟩

/-! ## C2: runs and decoded attributes -/

/-- Counterexample to C2 as stated: in `blink_frame` (font mask 0) the two
cells have the same decoded attribute, yet `console_print` starts a second
colour-escape block at column 1, so the row has two blocks where the claim
gives one. -/
theorem blocks_split_without_decoded_change :
    blink_frame.flags.plain = false ∧
    cell_decoded blink_frame 0 1 = cell_decoded blink_frame 0 0 ∧
    changes ((List.range blink_frame.attributes.columns).map (cell_decoded blink_frame 0)) = 0 ∧
    (row_step Globals.initial blink_frame print_start 0).out =
      bytes "\x1b[37;40mA\x1b[0m\x1b[37;40mB\x1b[0m\n" ∧
    runs (row_cells blink_frame 0) = [(7, [65]), (-121, [66])] ∧
    1 ∈ run_starts 0 (runs (row_cells blink_frame 0)) := by
  decide

theorem row_decoded_list (cnsl : console) (i : Nat) :
    ((row_cells cnsl i).map (fun x => x.1)).map decoded =
      (List.range cnsl.attributes.columns).map (cell_decoded cnsl i) := by
  simp [row_cells, cell_decoded, Function.comp_def]

theorem row_attr_range (cnsl : console) (i : Nat) (hm : cnsl.mask ≠ 0) :
    ∀ a ∈ (row_cells cnsl i).map (fun x => x.1), -64 ≤ a ∧ a ≤ 63 := by
  intro a ha
  simp only [row_cells, List.map_map, List.mem_map, Function.comp] at ha
  obtain ⟨j, _, rfl⟩ := ha
  exact cell_attr_shifted_range _ _ hm

/-- C2, amended: in non-plain mode, for every font mask and every row with
at least one column, a new colour-escape block starts at column `j >= 1`
whenever the decoded attribute of cell `j` differs from that of cell `j-1`,
and the number of blocks is at least 1 plus the number of adjacent pairs
whose decoded attributes differ.  With a font mask that is not zero both
hold with equivalence and equality, and a row whose columns 0-2 decode to
`A` and whose columns 3-5 decode to `B`, `A` different from `B`, gives
exactly two runs of three characters each, in that order. -/
theorem blocks_follow_decoded_attribute (g : Globals) (cnsl : console) (st : print_state)
    (i : Nat) (hplain : cnsl.flags.plain = false) (hcol : 0 < cnsl.attributes.columns)
    (hc : cnsl.attributes.columns ≤ 255) :
    (row_step g cnsl st i).out =
      st.out ++ (runs (row_cells cnsl i)).flatMap (fun r => block g r.1 (c_cut r.2)) ++ [10] ∧
    (∀ j, 1 ≤ j → j < cnsl.attributes.columns →
      cell_decoded cnsl i j ≠ cell_decoded cnsl i (j - 1) →
      j ∈ run_starts 0 (runs (row_cells cnsl i))) ∧
    1 + changes ((List.range cnsl.attributes.columns).map (cell_decoded cnsl i)) ≤
      (runs (row_cells cnsl i)).length ∧
    (cnsl.mask ≠ 0 →
      (∀ j, 1 ≤ j → j < cnsl.attributes.columns →
        (j ∈ run_starts 0 (runs (row_cells cnsl i)) ↔
          cell_decoded cnsl i j ≠ cell_decoded cnsl i (j - 1))) ∧
      (runs (row_cells cnsl i)).length =
        1 + changes ((List.range cnsl.attributes.columns).map (cell_decoded cnsl i)) ∧
      (cnsl.attributes.columns = 6 → ∀ A B : DecodedAttribute,
        (∀ j, j < 3 → cell_decoded cnsl i j = A) →
        (∀ j, 3 ≤ j → j < 6 → cell_decoded cnsl i j = B) → A ≠ B →
        (runs (row_cells cnsl i)).map (fun r => (decoded r.1, r.2)) =
          [(A, [cell_data (cnsl.chars i 0), cell_data (cnsl.chars i 1),
                cell_data (cnsl.chars i 2)]),
           (B, [cell_data (cnsl.chars i 3), cell_data (cnsl.chars i 4),
                cell_data (cnsl.chars i 5)])])) := by
  refine ⟨?_, ?_, ?_, ?_⟩
  · rw [row_step_out g cnsl st i hc, row_output]
    simp [hplain]
  · intro j h1 hj hne
    rw [row_runs_starts cnsl i j h1 hj]
    intro e
    apply hne
    unfold cell_decoded
    rw [e]
  · rw [row_runs_length cnsl i hcol, ← row_decoded_list]
    have := changes_map_le decoded ((row_cells cnsl i).map (fun x => x.1))
    omega
  · intro hm
    refine ⟨?_, ?_, ?_⟩
    · intro j h1 hj
      rw [row_runs_starts cnsl i j h1 hj]
      constructor
      · intro hne e
        exact hne (decoded_injective _ _ (cell_attr_shifted_range _ _ hm)
          (cell_attr_shifted_range _ _ hm) e)
      · intro hne e
        apply hne
        unfold cell_decoded
        rw [e]
    · rw [row_runs_length cnsl i hcol, ← row_decoded_list]
      rw [changes_map_eq decoded]
      intro a ha b hb e
      exact decoded_injective a b (row_attr_range cnsl i hm a ha) (row_attr_range cnsl i hm b hb) e
    · intro h6 A B hA hB hAB
      have inj : ∀ j k, cell_decoded cnsl i j = cell_decoded cnsl i k →
          cell_attr cnsl.mask (cnsl.chars i j) = cell_attr cnsl.mask (cnsl.chars i k) :=
        fun j k e => decoded_injective _ _ (cell_attr_shifted_range _ _ hm)
          (cell_attr_shifted_range _ _ hm) e
      have e1 := inj 1 0 (by rw [hA 1 (by omega), hA 0 (by omega)])
      have e2 := inj 2 0 (by rw [hA 2 (by omega), hA 0 (by omega)])
      have e4 := inj 4 3 (by rw [hB 4 (by omega) (by omega), hB 3 (by omega) (by omega)])
      have e5 := inj 5 3 (by rw [hB 5 (by omega) (by omega), hB 3 (by omega) (by omega)])
      have e3 : cell_attr cnsl.mask (cnsl.chars i 3) ≠ cell_attr cnsl.mask (cnsl.chars i 0) := by
        intro e
        apply hAB
        rw [← hA 0 (by omega), ← hB 3 (by omega) (by omega)]
        unfold cell_decoded
        rw [e]
      have dA : decoded (cell_attr cnsl.mask (cnsl.chars i 0)) = A := hA 0 (by omega)
      have dB : decoded (cell_attr cnsl.mask (cnsl.chars i 3)) = B := hB 3 (by omega) (by omega)
      simp [row_cells, h6, List.range_succ, runs, runs_from, e1, e2, e3, e4, e5, dA, dB]

/-- Witness for C2: `two_run_frame` has a non-zero font mask, columns 0-2 of
one attribute and columns 3-5 of another; its row is printed as exactly two
blocks of three characters each. -/
theorem blocks_follow_decoded_attribute_witness :
    two_run_frame.flags.plain = false ∧ 0 < two_run_frame.attributes.columns ∧
    two_run_frame.attributes.columns ≤ 255 ∧ two_run_frame.mask ≠ 0 ∧
    runs (row_cells two_run_frame 0) = [(7, [97, 98, 99]), (-49, [120, 121, 122])] ∧
    (row_step Globals.initial two_run_frame print_start 0).out =
      bytes "\x1b[37;40mabc\x1b[0m\x1b[37;41;1mxyz\x1b[0m\n" ∧
    (runs (row_cells two_run_frame 0)).length =
      1 + changes ((List.range two_run_frame.attributes.columns).map
        (cell_decoded two_run_frame 0)) :=
  ⟨by decide, by decide, by decide, by decide, by decide,
    (blocks_follow_decoded_attribute Globals.initial two_run_frame print_start 0
      (by decide) (by decide) (by decide)).1.trans (by decide),
    ((blocks_follow_decoded_attribute Globals.initial two_run_frame print_start 0
      (by decide) (by decide) (by decide)).2.2.2 (by decide)).2.1⟩

/-! ## C3: the text of a row in plain mode -/

theorem c_cut_eq_self (l : List Nat) (h : ∀ b ∈ l, b ≠ 0) : c_cut l = l := by
  unfold c_cut
  rw [List.takeWhile_eq_self_iff]
  intro b hb
  simpa using h b hb

theorem rtrim_spec (l : List Nat) :
    l = rtrim l ++ List.replicate (l.length - (rtrim l).length) 32 ∧
      (rtrim l).getLast? ≠ some 32 := by
  induction l using List.reverseRecOn with
  | nil => simp [rtrim]
  | append_singleton l x ih =>
    rw [rtrim_concat]
    by_cases h : x = 32
    · simp only [h, if_true]
      refine ⟨?_, ih.2⟩
      have hle : (rtrim l).length ≤ l.length := by
        have := congrArg List.length ih.1
        simp at this
        omega
      have e : (l ++ [32]).length - (rtrim l).length = (l.length - (rtrim l).length) + 1 := by
        simp; omega
      rw [e, List.replicate_succ', ← List.append_assoc, ← ih.1]
    · simp [h]

theorem rtrim_mem (l : List Nat) (b : Nat) (hb : b ∈ rtrim l) : b ∈ l := by
  rw [(rtrim_spec l).1]
  exact List.mem_append_left _ hb

theorem rtrim_eq_self (l : List Nat) (h : l.getLast? ≠ some 32) : rtrim l = l := by
  induction l using List.reverseRecOn with
  | nil => simp [rtrim]
  | append_singleton l x _ =>
    rw [rtrim_concat]
    have : x ≠ 32 := by simpa using h
    simp [this]

theorem rtrim_all_spaces (l : List Nat) (h : ∀ b ∈ l, b = 32) : rtrim l = [] := by
  induction l using List.reverseRecOn with
  | nil => simp [rtrim]
  | append_singleton l x ih =>
    rw [rtrim_concat]
    have hx : x = 32 := h x (by simp)
    simp only [hx, if_true]
    exact ih (fun b hb => h b (by simp [hb]))

/-- Counterexample to C3 as stated: the plain-mode row `A`, NUL, `B` has no
trailing space, yet the text printed for it is `A` alone, not the three
bytes of the row. -/
theorem plain_row_cut_at_nul :
    nul_frame.flags.plain = true ∧
    row_chars nul_frame 0 = [65, 0, 66] ∧
    rtrim (row_chars nul_frame 0) = [65, 0, 66] ∧
    (row_step Globals.initial nul_frame print_start 0).out = [65, 10] := by
  decide

/-- C3, amended: in plain mode, for every row of at most 255 character bytes
none of which is 0x00, the text printed for the row, followed by the line
break, is the row's characters in column order without the trailing spaces:
the row is that text followed by spaces only, and the text does not end in a
space.  A row that does not end in a space is printed unchanged, and a row
of spaces only is printed as the empty text. -/
theorem plain_row_text (g : Globals) (cnsl : console) (st : print_state) (i : Nat)
    (hplain : cnsl.flags.plain = true) (hc : cnsl.attributes.columns ≤ 255)
    (hnul : ∀ j, j < cnsl.attributes.columns → cell_data (cnsl.chars i j) ≠ 0) :
    (row_step g cnsl st i).out = st.out ++ rtrim (row_chars cnsl i) ++ [10] ∧
    row_chars cnsl i = rtrim (row_chars cnsl i) ++
      List.replicate (cnsl.attributes.columns - (rtrim (row_chars cnsl i)).length) 32 ∧
    (rtrim (row_chars cnsl i)).getLast? ≠ some 32 ∧
    ((row_chars cnsl i).getLast? ≠ some 32 →
      (row_step g cnsl st i).out = st.out ++ row_chars cnsl i ++ [10]) ∧
    ((∀ j, j < cnsl.attributes.columns → cell_data (cnsl.chars i j) = 32) →
      (row_step g cnsl st i).out = st.out ++ [10]) := by
  have hmem : ∀ b ∈ row_chars cnsl i, b ≠ 0 := by
    intro b hb
    simp only [row_chars, List.mem_map, List.mem_range] at hb
    obtain ⟨j, hj, rfl⟩ := hb
    exact hnul j hj
  have hout : (row_step g cnsl st i).out = st.out ++ rtrim (row_chars cnsl i) ++ [10] := by
    rw [row_step_out g cnsl st i hc, row_output]
    simp only [hplain, if_true]
    rw [c_cut_eq_self _ (fun b hb => hmem b (rtrim_mem _ b hb)), List.append_assoc]
  have hspec := rtrim_spec (row_chars cnsl i)
  have hlen : (row_chars cnsl i).length = cnsl.attributes.columns := by simp [row_chars]
  rw [hlen] at hspec
  refine ⟨hout, hspec.1, hspec.2, ?_, ?_⟩
  · intro h
    rw [hout, rtrim_eq_self _ h]
  · intro h
    rw [hout, rtrim_all_spaces]
    · simp
    · intro b hb
      simp only [row_chars, List.mem_map, List.mem_range] at hb
      obtain ⟨j, hj, rfl⟩ := hb
      exact h j hj

/-- Witness for C3: `AB` followed by three spaces is printed as `AB`, the
row ` a b` with a leading and an interior space is printed unchanged, and
a row of four spaces is printed as the empty text. -/
theorem plain_row_text_witness :
    (row_step Globals.initial ab_frame print_start 0).out = bytes "AB\n" ∧
    (row_step Globals.initial indent_frame print_start 0).out = bytes " a b\n" ∧
    (row_step Globals.initial blank_frame print_start 0).out = bytes "\n" :=
  ⟨(plain_row_text Globals.initial ab_frame print_start 0 (by decide) (by decide)
      (by decide)).1.trans (by decide),
    ((plain_row_text Globals.initial indent_frame print_start 0 (by decide) (by decide)
      (by decide)).2.2.2.1 (by decide)).trans (by decide),
    ((plain_row_text Globals.initial blank_frame print_start 0 (by decide) (by decide)
      (by decide)).2.2.2.2 (by decide)).trans (by decide)⟩

/-! ## The start of main -/

theorem main_option_spec (s s' : Globals × console) (ch : Char)
    (h : main_option s ch = some s') (hs : s.1 = tables_for s.2.flags.light) :
    s'.1 = tables_for s'.2.flags.light ∧
    s'.2.flags.light = (s.2.flags.light || decide (ch = 'l')) ∧
    s'.2.flags.plain = (s.2.flags.plain || decide (ch = 'p')) ∧
    s'.2.flags.watch = (s.2.flags.watch || decide (ch = 'w')) ∧
    s'.2.flags.printed = s.2.flags.printed := by
  have n1 : ¬ ('p' = 'l') := by decide
  have n2 : ¬ ('w' = 'l') := by decide
  have n3 : ¬ ('w' = 'p') := by decide
  have n4 : ¬ ('l' = 'p') := by decide
  have n5 : ¬ ('l' = 'w') := by decide
  have n6 : ¬ ('p' = 'w') := by decide
  unfold main_option at h
  by_cases hl : ch = 'l'
  · subst hl
    simp only [if_true, Option.some.injEq] at h
    subst h
    refine ⟨?_, by simp, by simp [n4], by simp [n5], rfl⟩
    simp only [hs]
    cases s.2.flags.light <;> decide
  · by_cases hp : ch = 'p'
    · subst hp
      simp only [n1, if_true, if_false, Option.some.injEq] at h
      subst h
      exact ⟨by simpa using hs, by simp [n1], by simp, by simp [n6], rfl⟩
    · by_cases hw : ch = 'w'
      · subst hw
        simp only [n2, n3, if_true, if_false, Option.some.injEq] at h
        subst h
        exact ⟨by simpa using hs, by simp [n2], by simp [n3], by simp, rfl⟩
      · simp [hl, hp, hw] at h

theorem option_loop_spec :
    ∀ (opts : List Char) (s s' : Globals × console), opts.foldlM main_option s = some s' →
      s.1 = tables_for s.2.flags.light →
      s'.1 = tables_for s'.2.flags.light ∧
      s'.2.flags.light = (s.2.flags.light || decide ('l' ∈ opts)) ∧
      s'.2.flags.plain = (s.2.flags.plain || decide ('p' ∈ opts)) ∧
      s'.2.flags.watch = (s.2.flags.watch || decide ('w' ∈ opts)) ∧
      s'.2.flags.printed = s.2.flags.printed := by
  intro opts
  induction opts with
  | nil =>
    intro s s' h hs
    simp only [List.foldlM_nil] at h
    have e : s = s' := by simpa using h
    subst e
    simp [hs]
  | cons ch opts ih =>
    intro s s' h hs
    rw [List.foldlM_cons] at h
    cases h1 : main_option s ch with
    | none => simp [h1] at h
    | some s1 =>
      simp only [h1, Option.some_bind] at h
      have a := main_option_spec s s1 ch h1 hs
      have b := ih s1 s' h a.1
      refine ⟨b.1, ?_, ?_, ?_, ?_⟩
      · rw [b.2.1, a.2.1]; simp [Bool.or_assoc, eq_comm]
      · rw [b.2.2.1, a.2.2.1]; simp [Bool.or_assoc, eq_comm]
      · rw [b.2.2.2.1, a.2.2.2.1]; simp [Bool.or_assoc, eq_comm]
      · rw [b.2.2.2.2, a.2.2.2.2]

theorem main_setup_spec (opts : List Char) (isatty : Bool) (g : Globals) (cnsl : console)
    (h : main_setup opts isatty = some (g, cnsl)) :
    g = tables_for cnsl.flags.light ∧
    cnsl.flags.light = decide ('l' ∈ opts) ∧
    cnsl.flags.plain = (decide ('p' ∈ opts) || !isatty) ∧
    cnsl.flags.watch = (decide ('w' ∈ opts) && isatty) ∧
    cnsl.flags.printed = false := by
  unfold main_setup at h
  cases h1 : opts.foldlM main_option (Globals.initial, console_init) with
  | none => simp [h1] at h
  | some s =>
    simp only [h1] at h
    have a := option_loop_spec opts _ s h1 (by decide)
    have i1 : console_init.flags.light = false := rfl
    have i2 : console_init.flags.plain = false := rfl
    have i3 : console_init.flags.watch = false := rfl
    have i4 : console_init.flags.printed = false := rfl
    simp only [i1, i2, i3, i4, Bool.false_or] at a
    obtain ⟨a1, a2, a3, a4, a5⟩ := a
    cases isatty with
    | true =>
      simp only [Bool.true_eq_false, if_false, Option.some.injEq] at h
      subst h
      exact ⟨a1, a2, by simpa using a3, by simpa using a4, a5⟩
    | false =>
      simp only [if_true, Option.some.injEq, Prod.mk.injEq] at h
      obtain ⟨hg, hc⟩ := h
      subst hc
      subst hg
      exact ⟨a1, a2, by simp, by simp, a5⟩

set_option maxRecDepth 100000 in
theorem tables_for_codes : ∀ (light : Bool) (k : Fin 8),
    (tables_for light).ansi_fg_color.getD k.val [] = spec_fg_code light k.val ∧
    (tables_for light).ansi_bg_color.getD k.val [] = spec_bg_code light k.val := by
  decide

theorem reverse_bits_lt : ∀ k : Fin 8, reverse_bits.getD k.val 0 < 8 := by
  decide

theorem bits3_lt (attr : Int) (p : Nat) : bits attr p 3 < 8 := by
  unfold bits
  exact lt_of_le_of_lt Nat.and_le_right (by decide)

theorem decoded_range (attr : Int) :
    (decoded attr).foreground < 8 ∧ (decoded attr).background < 8 :=
  ⟨reverse_bits_lt ⟨bits attr 0 3, bits3_lt attr 0⟩, reverse_bits_lt ⟨bits attr 4 3, bits3_lt attr 4⟩⟩

set_option maxRecDepth 100000 in
theorem light_codes : ∀ (light : Bool) (k : Fin 8),
    (spec_fg_code light k.val = bytes "39" ↔ light = true ∧ k.val = 7) ∧
    (spec_bg_code light k.val = bytes "49" ↔ light = true ∧ k.val = 0) := by
  decide

/-! ## C4: colour mapping -/

/-- C4: with the colour tables as the option loop of `main` leaves them,
light mode is on exactly when option `-l` was given; the table entry for a
foreground index `f` is the decimal code 30+f and for a background index `b`
the decimal code 40+b, except that in light mode index 7 has the foreground
code 39 and index 0 the background code 49, and no other index has these
codes; the colour-start escape that `console_print_buffer` writes for a run
carries these codes for the decoded attribute, with the suffix `;1` exactly
when the bold flag is set. -/
theorem colour_mapping (opts : List Char) (isatty : Bool) (g : Globals) (cnsl : console)
    (h : main_setup opts isatty = some (g, cnsl)) :
    (cnsl.flags.light = true ↔ 'l' ∈ opts) ∧
    (∀ f, f < 8 → g.ansi_fg_color.getD f [] = spec_fg_code cnsl.flags.light f ∧
      (g.ansi_fg_color.getD f [] = bytes "39" ↔ cnsl.flags.light = true ∧ f = 7)) ∧
    (∀ b, b < 8 → g.ansi_bg_color.getD b [] = spec_bg_code cnsl.flags.light b ∧
      (g.ansi_bg_color.getD b [] = bytes "49" ↔ cnsl.flags.light = true ∧ b = 0)) ∧
    (∀ (c : console) (buffer : Nat → Nat) (n : Nat) (attr : Int) (out : List Nat),
      c.flags.plain = false →
      (decoded attr).foreground < 8 ∧ (decoded attr).background < 8 ∧
      (console_print_buffer g c buffer n attr out).2 =
        out ++ (bytes "\x1b[" ++ spec_fg_code cnsl.flags.light (decoded attr).foreground ++
          bytes ";" ++ spec_bg_code cnsl.flags.light (decoded attr).background ++
          spec_bold_suffix (decoded attr).bold ++ bytes "m" ++
          c_string (Function.update buffer n 0) (MAX_COLUMNS + 1) 0 ++ bytes "\x1b[0m")) := by
  obtain ⟨hg, hl, -, -, -⟩ := main_setup_spec opts isatty g cnsl h
  refine ⟨by rw [hl]; simp, ?_, ?_, ?_⟩
  · intro f hf
    have e := (tables_for_codes cnsl.flags.light ⟨f, hf⟩).1
    rw [← hg] at e
    exact ⟨e, by rw [e]; exact (light_codes cnsl.flags.light ⟨f, hf⟩).1⟩
  · intro b hb
    have e := (tables_for_codes cnsl.flags.light ⟨b, hb⟩).2
    rw [← hg] at e
    exact ⟨e, by rw [e]; exact (light_codes cnsl.flags.light ⟨b, hb⟩).2⟩
  · intro c buffer n attr out hp
    have r := decoded_range attr
    refine ⟨r.1, r.2, ?_⟩
    have e1 := (tables_for_codes cnsl.flags.light ⟨_, r.1⟩).1
    have e2 := (tables_for_codes cnsl.flags.light ⟨_, r.2⟩).2
    rw [← hg] at e1 e2
    simp only [] at e1 e2
    rw [← e1, ← e2]
    simp only [console_print_buffer, hp, decoded, printf_colored, spec_bold_suffix]
    by_cases hb : bold_bit attr = 0
    · simp [hb, bytes]
    · simp [hb, bytes]

/-- Witness for C4: after option `-l` the attribute value 0x0f, with raw
foreground 7, bold, raw background 0, is printed with the codes 39 and 49
and the suffix `;1`. -/
theorem colour_mapping_witness :
    main_setup ['l'] true = some (tables_for true, light_console) ∧
    (console_print_buffer (tables_for true) light_console (fun _ => 65) 2 0x0f []).2 =
      bytes "\x1b[39;49;1mAA\x1b[0m" :=
  ⟨rfl, ((colour_mapping ['l'] true (tables_for true) light_console rfl).2.2.2
      light_console (fun _ => 65) 2 0x0f [] rfl).2.2.trans (by decide)⟩

/-! ## Reading a frame -/

theorem console_read_core_none {σ : Type} (D : Device σ) (dev : σ) (size : Nat) :
    console_read_core D dev size = none ↔ (D.read dev size).1.length < size := by
  unfold console_read_core
  by_cases h : (D.read dev size).1.length < size
  · simp [h]
  · simp [h]

theorem console_read_core_some {σ : Type} (D : Device σ) (dev : σ) (size : Nat)
    (r : List Nat × σ) (h : console_read_core D dev size = some r) :
    r = D.read dev size ∧ size ≤ (D.read dev size).1.length := by
  unfold console_read_core at h
  by_cases h2 : (D.read dev size).1.length < size
  · simp [h2] at h
  · simp [h2] at h
    exact ⟨h.symm, by omega⟩

theorem read_row_none {σ : Type} (D : Device σ) (s : console × σ) (i : Nat) :
    read_row D s i = none ↔
      (D.read s.2 (s.1.attributes.columns * 2)).1.length < s.1.attributes.columns * 2 := by
  rw [← console_read_core_none]
  unfold read_row
  cases console_read_core D s.2 (s.1.attributes.columns * 2) <;> simp

theorem read_row_some {σ : Type} (D : Device σ) (s s' : console × σ) (i : Nat)
    (h : read_row D s i = some s') :
    s'.1.attributes = s.1.attributes ∧ s'.1.flags = s.1.flags ∧ s'.1.mask = s.1.mask ∧
    s'.2 = (D.read s.2 (s.1.attributes.columns * 2)).2 ∧
    s.1.attributes.columns * 2 ≤ (D.read s.2 (s.1.attributes.columns * 2)).1.length ∧
    s'.1.chars = Function.update s.1.chars i (store_row (s.1.chars i) s.1.attributes.columns
      (D.read s.2 (s.1.attributes.columns * 2)).1) := by
  unfold read_row at h
  cases h1 : console_read_core D s.2 (s.1.attributes.columns * 2) with
  | none => simp [h1] at h
  | some r =>
    simp only [h1, Option.some.injEq] at h
    obtain ⟨e, hle⟩ := console_read_core_some D _ _ r h1
    subst h
    subst e
    exact ⟨rfl, rfl, rfl, rfl, hle, rfl⟩

theorem read_rows_none {σ : Type} (D : Device σ) :
    ∀ (l : List Nat) (s : console × σ),
      l.foldlM (read_row D) s = none ↔
        ∃ k, k < l.length ∧
          (D.read (dev_at_row D (s.1.attributes.columns * 2) s.2 k)
            (s.1.attributes.columns * 2)).1.length < s.1.attributes.columns * 2 := by
  intro l
  induction l with
  | nil => intro s; simp
  | cons i l ih =>
    intro s
    rw [List.foldlM_cons]
    cases h1 : read_row D s i with
    | none =>
      simp only [Option.bind_eq_bind, Option.none_bind, true_iff]
      exact ⟨0, by simp, by simpa [dev_at_row] using (read_row_none D s i).mp h1⟩
    | some s1 =>
      simp only [Option.bind_eq_bind, Option.some_bind]
      obtain ⟨ha, -, -, hd, hle, -⟩ := read_row_some D s s1 i h1
      rw [ih s1, ha, hd]
      constructor
      · rintro ⟨k, hk, hs⟩
        exact ⟨k + 1, by simpa using hk, by simpa [dev_at_row] using hs⟩
      · rintro ⟨k, hk, hs⟩
        cases k with
        | zero =>
          simp [dev_at_row] at hs
          omega
        | succ k =>
          exact ⟨k, by simpa using hk, by simpa [dev_at_row] using hs⟩

theorem read_rows_some {σ : Type} (D : Device σ) :
    ∀ (l : List Nat) (s s' : console × σ), l.foldlM (read_row D) s = some s' →
      s'.1.attributes = s.1.attributes ∧ s'.1.flags = s.1.flags ∧ s'.1.mask = s.1.mask := by
  intro l
  induction l with
  | nil =>
    intro s s' h
    simp only [List.foldlM_nil] at h
    have e : s = s' := by simpa using h
    subst e
    exact ⟨rfl, rfl, rfl⟩
  | cons i l ih =>
    intro s s' h
    rw [List.foldlM_cons] at h
    cases h1 : read_row D s i with
    | none => simp [h1] at h
    | some s1 =>
      simp only [h1, Option.some_bind] at h
      obtain ⟨a1, a2, a3, -⟩ := read_row_some D s s1 i h1
      obtain ⟨b1, b2, b3⟩ := ih s1 s' h
      exact ⟨b1.trans a1, b2.trans a2, b3.trans a3⟩

theorem console_read_some {σ : Type} (D : Device σ) (cnsl : console) (dev : σ)
    (s : console × σ) (h : console_read D cnsl dev = some s) :
    s.1.flags = cnsl.flags ∧ s.1.mask = cnsl.mask ∧
    s.1.attributes = { lines := (D.read dev 4).1.getD 0 0, columns := (D.read dev 4).1.getD 1 0,
                       x := (D.read dev 4).1.getD 2 0, y := (D.read dev 4).1.getD 3 0 } := by
  unfold console_read at h
  cases h1 : console_read_core D dev 4 with
  | none => simp [h1] at h
  | some r =>
    obtain ⟨e, -⟩ := console_read_core_some D _ _ r h1
    subst e
    simp only [h1] at h
    split at h
    · cases h
    · rename_i s2 h2
      obtain ⟨a1, a2, a3⟩ := read_rows_some D _ _ s2 h2
      have e := Option.some.inj h
      subst e
      exact ⟨a2, a3, a1⟩

/-! ## C5: a short read is fatal -/

/-- C5: for every device, `console_read` fails exactly when the header read
delivers fewer than 4 bytes or the read of some row `i < rows` delivers
fewer than `columns * 2` bytes, `rows` and `columns` being the first two
header bytes; and when it fails the iteration of the loop of `main` ends the
process with `EXIT_FAILURE` and stdout as it was, `console_print` not being
run. -/
theorem short_read_is_fatal {σ : Type} (D : Device σ) (cnsl : console) (dev : σ) :
    (console_read D cnsl dev = none ↔
      (D.read dev 4).1.length < 4 ∨
      ∃ i, i < (D.read dev 4).1.getD 0 0 ∧
        (D.read (dev_at_row D ((D.read dev 4).1.getD 1 0 * 2) (D.read dev 4).2 i)
          ((D.read dev 4).1.getD 1 0 * 2)).1.length < (D.read dev 4).1.getD 1 0 * 2) ∧
    (∀ (g : Globals) (fuel : Nat) (line : Nat → Nat) (out : List Nat),
      console_read D cnsl dev = none →
      main_loop D g (fuel + 1) cnsl line out dev = outcome.exited 1 out) := by
  constructor
  · unfold console_read
    cases h1 : console_read_core D dev 4 with
    | none =>
      simp only [true_iff]
      exact Or.inl ((console_read_core_none D dev 4).mp h1)
    | some r =>
      obtain ⟨e, hle⟩ := console_read_core_some D _ _ r h1
      subst e
      have hnot : ¬ (D.read dev 4).1.length < 4 := by omega
      simp only [hnot, false_or]
      rw [← (by simp : ((List.range ((D.read dev 4).1.getD 0 0)).length = (D.read dev 4).1.getD 0 0))]
      rw [← read_rows_none D (List.range ((D.read dev 4).1.getD 0 0))
        ({ cnsl with attributes :=
            { lines := (D.read dev 4).1.getD 0 0, columns := (D.read dev 4).1.getD 1 0,
              x := (D.read dev 4).1.getD 2 0, y := (D.read dev 4).1.getD 3 0 } }, (D.read dev 4).2)]
      simp only [List.length_range]
      split <;> simp_all
  · intro g fuel line out h
    simp [main_loop, h]

/-- Witness for C5: a device that ends right after a header declaring 5 rows
and 1 column makes `console_read` fail, and the run of `main` ends with
`EXIT_FAILURE` and empty stdout. -/
theorem short_read_is_fatal_witness :
    console_read file_device console_init { data := [5, 1, 0, 0], pos := 0, nread := 0 } = none ∧
    main file_device short_env 3 = outcome.exited 1 [] :=
  ⟨(short_read_is_fatal file_device console_init { data := [5, 1, 0, 0], pos := 0, nread := 0 }).1.mpr
      (Or.inr ⟨0, by decide, by decide⟩),
    by decide⟩

/-! ## C6: frame layout -/

theorem getD_take_drop (l : List Nat) (p n k : Nat) (h : k < n) :
    ((l.drop p).take n).getD k 0 = l.getD (p + k) 0 := by
  simp [List.getD_eq_getElem?_getD, List.getElem?_take, h]

theorem cell_of_bytes (lo hi : Nat) (h : lo < 256) :
    cell_data (lo + 256 * hi) = lo ∧ (lo + 256 * hi) >>> 8 = hi := by
  constructor
  · unfold cell_data
    have e := Nat.and_pow_two_sub_one_eq_mod (lo + 256 * hi) 8
    norm_num at e
    rw [e]; omega
  · rw [Nat.shiftRight_eq_div_pow]; omega

theorem file_rows (bs : List Nat) (c : Nat) :
    ∀ (n s0 : Nat) (st : console × file_dev), st.2.data = bs → st.2.pos = 4 + 2 * (s0 * c) →
      st.1.attributes.columns = c → 4 + 2 * ((s0 + n) * c) ≤ bs.length →
      ∃ st', (List.range' s0 n).foldlM (read_row file_device) st = some st' ∧
        st'.2.data = bs ∧ st'.2.pos = 4 + 2 * ((s0 + n) * c) ∧
        st'.2.nread = st.2.nread + 2 * (n * c) ∧
        (∀ i j, s0 ≤ i → i < s0 + n → j < c →
          st'.1.chars i j =
            bs.getD (4 + 2 * (i * c + j)) 0 + 256 * bs.getD (4 + 2 * (i * c + j) + 1) 0) ∧
        (∀ i, i < s0 → st'.1.chars i = st.1.chars i) := by
  intro n
  induction n with
  | zero =>
    intro s0 st hd hp _ _
    exact ⟨st, by simp, hd, by simpa using hp, by simp, by intro i j h1 h2; omega, fun _ _ => rfl⟩
  | succ n ih =>
    intro s0 st hd hp hcol hlen
    have e1 : (s0 + (n + 1)) * c = s0 * c + c + n * c := by ring
    have e2 : (s0 + 1 + n) * c = s0 * c + c + n * c := by ring
    have e3 : (s0 + 1) * c = s0 * c + c := by ring
    have e4 : (n + 1) * c = n * c + c := by ring
    have hlenr : ((file_device.read st.2 (c * 2)).1).length = c * 2 := by
      simp only [file_device, List.length_take, List.length_drop, hd, hp]
      omega
    cases h1 : read_row file_device st s0 with
    | none =>
      have := (read_row_none file_device st s0).mp h1
      rw [hcol, hlenr] at this
      omega
    | some st1 =>
      obtain ⟨a1, -, -, a4, -, a6⟩ := read_row_some file_device st st1 s0 h1
      rw [hcol] at a4 a6
      have d1 : st1.2.data = bs := by rw [a4]; simpa [file_device] using hd
      have p1 : st1.2.pos = 4 + 2 * ((s0 + 1) * c) := by
        rw [a4]
        have : (file_device.read st.2 (c * 2)).2.pos =
            st.2.pos + ((file_device.read st.2 (c * 2)).1).length := rfl
        rw [this, hlenr, hp, e3]; omega
      have n1 : st1.2.nread = st.2.nread + c * 2 := by
        rw [a4]
        have : (file_device.read st.2 (c * 2)).2.nread =
            st.2.nread + ((file_device.read st.2 (c * 2)).1).length := rfl
        rw [this, hlenr]
      obtain ⟨st', f1, f2, f3, f4, f5, f6⟩ := ih (s0 + 1) st1 d1 p1 (by rw [a1, hcol])
        (by rw [e2]; rw [e1] at hlen; exact hlen)
      refine ⟨st', ?_, f2, ?_, ?_, ?_, ?_⟩
      · rw [List.range'_succ, List.foldlM_cons, h1]
        simpa using f1
      · rw [f3, e1, e2]
      · rw [f4, n1, e4]; omega
      · intro i j hi1 hi2 hj
        by_cases hi : i = s0
        · subst hi
          rw [f6 i (by omega), a6, Function.update_same]
          unfold store_row
          simp only [hj, if_true]
          have r1 : (file_device.read st.2 (c * 2)).1 = (bs.drop st.2.pos).take (c * 2) := by
            simp [file_device, hd]
          rw [r1, getD_take_drop _ _ _ _ (by omega), getD_take_drop _ _ _ _ (by omega), hp]
          have o1 : 4 + 2 * (i * c) + 2 * j = 4 + 2 * (i * c + j) := by omega
          have o2 : 4 + 2 * (i * c) + (2 * j + 1) = 4 + 2 * (i * c + j) + 1 := by omega
          rw [o1, o2]
        · exact f5 i j (by omega) (by omega) hj
      · intro i hi
        rw [f6 i (by omega), a6]
        exact Function.update_noteq (by omega) _ _

/-- C6: for every byte sequence `bs` of at least `4 + 2 * rows * columns`
bytes, `rows` and `columns` being its first two bytes, `console_read`
succeeds; it is delivered exactly `4 + 2 * rows * columns` bytes (the file
offset ends there, or at 0 after the rewind of watch mode); the header
fields `lines`, `columns`, `x`, `y` are the bytes 0, 1, 2, 3; and for every
cell `(i, j)` of the frame the character `console_print` takes from it is
the byte at offset `4 + 2 * (i * columns + j)` and the high byte of the cell
is the byte at the next offset. -/
theorem frame_layout (cnsl : console) (bs : List Nat) (hb : ∀ b ∈ bs, b < 256)
    (hlen : 4 + 2 * (bs.getD 0 0 * bs.getD 1 0) ≤ bs.length) :
    ∃ s, console_read file_device cnsl { data := bs, pos := 0, nread := 0 } = some s ∧
      s.2.nread = 4 + 2 * (bs.getD 0 0 * bs.getD 1 0) ∧
      s.2.pos = (if cnsl.flags.watch = true then 0 else 4 + 2 * (bs.getD 0 0 * bs.getD 1 0)) ∧
      s.1.attributes =
        { lines := bs.getD 0 0, columns := bs.getD 1 0, x := bs.getD 2 0, y := bs.getD 3 0 } ∧
      ∀ i j, i < bs.getD 0 0 → j < bs.getD 1 0 →
        cell_data (s.1.chars i j) = bs.getD (4 + 2 * (i * bs.getD 1 0 + j)) 0 ∧
        s.1.chars i j >>> 8 = bs.getD (4 + 2 * (i * bs.getD 1 0 + j) + 1) 0 := by
  have h4 : 4 ≤ bs.length := by omega
  have hr : file_device.read { data := bs, pos := 0, nread := 0 } 4 =
      (bs.take 4, { data := bs, pos := 4, nread := 4 }) := by
    simp [file_device, List.length_take, Nat.min_eq_left h4]
  have g : ∀ k, k < 4 → (bs.take 4).getD k 0 = bs.getD k 0 := by
    intro k hk
    have := getD_take_drop bs 0 4 k hk
    simpa using this
  have hcore : console_read_core file_device { data := bs, pos := 0, nread := 0 } 4 =
      some (bs.take 4, { data := bs, pos := 4, nread := 4 }) := by
    unfold console_read_core
    rw [hr]
    have : (bs.take 4).length = 4 := by rw [List.length_take]; omega
    simp [this]
  obtain ⟨st', f1, f2, f3, f4, f5, -⟩ := file_rows bs (bs.getD 1 0) (bs.getD 0 0) 0
    ({ cnsl with attributes :=
        { lines := bs.getD 0 0, columns := bs.getD 1 0, x := bs.getD 2 0, y := bs.getD 3 0 } },
      { data := bs, pos := 4, nread := 4 }) rfl (by simp) rfl (by simpa using hlen)
  obtain ⟨a1, -, -⟩ := read_rows_some file_device _ _ st' f1
  refine ⟨(st'.1, if cnsl.flags.watch = true then file_device.rewind st'.2 else st'.2),
    ?_, ?_, ?_, ?_, ?_⟩
  · unfold console_read
    rw [hcore]
    simp only [g 0 (by omega), g 1 (by omega), g 2 (by omega), g 3 (by omega)]
    rw [List.range_eq_range', f1]
  · have f4b : st'.2.nread = 4 + 2 * (bs.getD 0 0 * bs.getD 1 0) := by simpa using f4
    by_cases hw : cnsl.flags.watch = true
    · simp [hw, file_device, f4b]
    · simp [hw, f4b]
  · have f3b : st'.2.pos = 4 + 2 * (bs.getD 0 0 * bs.getD 1 0) := by simpa using f3
    by_cases hw : cnsl.flags.watch = true
    · simp [hw, file_device]
    · simp [hw, f3b]
  · exact a1
  · intro i j hi hj
    rw [f5 i j (by omega) (by omega) hj]
    apply cell_of_bytes
    by_cases hk : 4 + 2 * (i * bs.getD 1 0 + j) < bs.length
    · rw [List.getD_eq_getElem _ _ hk]
      exact hb _ (List.getElem_mem _)
    · rw [List.getD_eq_default _ _ (by omega)]
      omega

/-- Witness for C6: the twelve bytes of `sample_bytes` are read as a frame
of 2 rows and 2 columns with the cursor at (1, 0); the cell in row 1,
column 0 holds the character at offset 8 and the attribute byte at offset 9. -/
theorem frame_layout_witness :
    ∃ s, console_read file_device console_init { data := sample_bytes, pos := 0, nread := 0 } =
        some s ∧
      s.2.nread = 12 ∧ s.2.pos = 12 ∧
      s.1.attributes = { lines := 2, columns := 2, x := 1, y := 0 } ∧
      cell_data (s.1.chars 1 0) = 67 ∧ s.1.chars 1 0 >>> 8 = 8 := by
  obtain ⟨s, h1, h2, h3, h4, h5⟩ :=
    frame_layout console_init sample_bytes (by decide) (by decide)
  exact ⟨s, h1, h2, h3, h4, h5 1 0 (by decide) (by decide)⟩

/-! ## C7: the first render and the later ones -/

theorem take_of_append_eq (l1 t a rest : List Nat) (h : l1 ++ t = a ++ rest) :
    l1.take a.length = a.take l1.length := by
  by_cases hle : a.length ≤ l1.length
  · have e := congrArg (List.take a.length) h
    rw [List.take_append_of_le_length hle, List.take_left] at e
    rw [e, List.take_of_length_le hle]
  · have hlt : l1.length ≤ a.length := by omega
    have e := congrArg (List.take l1.length) h
    rw [List.take_left, List.take_append_of_le_length hlt] at e
    rw [← e, List.take_of_length_le hlt]

set_option maxRecDepth 1000000 in
theorem reposition_head : ∀ (n : Fin 256) (light : Bool) (f : Fin 8),
    (reposition n.val).take 5 ≠
      (bytes "\x1b[" ++ spec_fg_code light f.val ++ bytes ";").take (reposition n.val).length := by
  decide

theorem runs_from_cons (l : List (Int × Nat)) :
    ∀ (c : Int) (pend : List Nat), ∃ r rs, runs_from c pend l = r :: rs := by
  induction l with
  | nil => intro c pend; exact ⟨(c, pend), [], rfl⟩
  | cons x l ih =>
    intro c pend
    unfold runs_from
    by_cases h : x.1 = c
    · simp only [h, ne_eq, not_true_eq_false, if_false]
      exact ih c _
    · simp only [h, ne_eq, not_false_eq_true, if_true]
      exact ⟨_, _, rfl⟩

theorem first_output_no_reposition (light : Bool) (cnsl : console)
    (hplain : cnsl.flags.plain = false) (hl : cnsl.attributes.lines ≤ 255) :
    ¬ ∃ t, frame_output (tables_for light) cnsl = reposition cnsl.attributes.lines ++ t := by
  rintro ⟨t, ht⟩
  unfold frame_output at ht
  cases hlines : cnsl.attributes.lines with
  | zero =>
    rw [hlines] at ht
    simp [reposition, bytes] at ht
  | succ n =>
    rw [hlines, List.range_eq_range', List.range'_succ, List.flatMap_cons] at ht
    unfold row_output at ht
    simp only [hplain, Bool.false_eq_true, if_false] at ht
    unfold row_cells at ht
    cases hcols : cnsl.attributes.columns with
    | zero =>
      rw [hcols] at ht
      simp [runs, reposition, bytes] at ht
    | succ m =>
      rw [hcols, List.range_eq_range', List.range'_succ] at ht
      simp only [List.map_cons, runs] at ht
      obtain ⟨r, rs, hr⟩ := runs_from_cons
        ((List.range' (0 + 1) m).map (fun j =>
          (cell_attr cnsl.mask (cnsl.chars 0 j), cell_data (cnsl.chars 0 j))))
        (cell_attr cnsl.mask (cnsl.chars 0 0)) [cell_data (cnsl.chars 0 0)]
      rw [hr, List.flatMap_cons] at ht
      have hf := (decoded_range r.1).1
      have hcode := (tables_for_codes light ⟨_, hf⟩).1
      simp only [decoded] at hcode
      unfold block printf_colored at ht
      rw [hcode] at ht
      simp only [List.append_assoc] at ht
      have e := take_of_append_eq _ _ (bytes "\x1b[" ++ spec_fg_code light (fg_index r.1) ++ bytes ";") _
        (by simpa only [List.append_assoc] using ht.symm)
      have hlen : (bytes "\x1b[" ++ spec_fg_code light (fg_index r.1) ++ bytes ";").length = 5 := by
        have : ∀ (b : Bool) (k : Fin 8),
            (bytes "\x1b[" ++ spec_fg_code b k.val ++ bytes ";").length = 5 := by decide
        exact this light ⟨_, hf⟩
      rw [hlen] at e
      have hn : n + 1 < 256 := by omega
      exact reposition_head ⟨n + 1, hn⟩ light ⟨_, hf⟩ e

/-- C7: the printed flag is false after `console_init`, true after every
`console_print`, and left as it is by `console_read`, `console_open` and
the option loop.  In non-plain mode, with the colour tables `main` set up,
the output of a `console_print` with the flag false does not start with the
cursor-reposition escape; the output of a `console_print` with the flag
true is the escape `ESC [ rows F` followed by what a first render of the
same frame writes, whatever the line buffer holds; so rendering a frame
twice writes the escape before the second render only. -/
theorem first_and_repeat_render (opts : List Char) (isatty : Bool) (g : Globals) (c0 : console)
    (hs : main_setup opts isatty = some (g, c0)) (cnsl : console)
    (hl : cnsl.attributes.lines ≤ 255) (hc : cnsl.attributes.columns ≤ 255) :
    console_init.flags.printed = false ∧ c0.flags.printed = false ∧
    (∀ line c1 out, (console_print g cnsl line c1 out).1.flags.printed = true) ∧
    (∀ {σ : Type} (D : Device σ) (dev : σ) (s : console × σ),
      console_read D cnsl dev = some s → s.1.flags.printed = cnsl.flags.printed) ∧
    (∀ num vfd tfd r m c, console_open cnsl num vfd tfd r m = some c →
      c.flags.printed = cnsl.flags.printed) ∧
    (cnsl.flags.plain = false → cnsl.flags.printed = false → ∀ line c1,
      ¬ ∃ t, (console_print g cnsl line c1 []).2.2 = reposition cnsl.attributes.lines ++ t) ∧
    (cnsl.flags.printed = true → ∀ line c1 out line' c1',
      (console_print g cnsl line c1 out).2.2 =
        out ++ (bytes "\x1b[" ++ decimal cnsl.attributes.lines ++ bytes "F") ++
          (console_print g { cnsl with flags := { cnsl.flags with printed := false } }
            line' c1' []).2.2) ∧
    (cnsl.flags.printed = false → ∀ line c1 c2,
      (console_print g (console_print g cnsl line c1 []).1 (console_print g cnsl line c1 []).2.1
          c2 (console_print g cnsl line c1 []).2.2).2.2 =
        (console_print g cnsl line c1 []).2.2 ++ reposition cnsl.attributes.lines ++
          (console_print g cnsl line c1 []).2.2) := by
  obtain ⟨hg, -, -, -, hp0⟩ := main_setup_spec opts isatty g c0 hs
  refine ⟨rfl, hp0, fun _ _ _ => rfl, ?_, ?_, ?_, ?_, ?_⟩
  · intro σ D dev s h
    rw [(console_read_some D cnsl dev s h).1]
  · intro num vfd tfd r m c h
    unfold console_open at h
    split at h
    · cases h
    · split at h
      · cases h
      · split at h
        · cases h
        · split at h
          · cases h
          · have e := Option.some.inj h
            subst e
            rfl
  · intro hplain hpr line c1
    rw [console_print_out g cnsl line c1 [] hc, hg]
    simp only [hpr, Bool.false_eq_true, if_false, List.nil_append, List.append_nil]
    exact first_output_no_reposition _ cnsl hplain hl
  · intro hpr line c1 out line' c1'
    have e1 := console_print_out g cnsl line c1 out hc
    have e2 := console_print_out g { cnsl with flags := { cnsl.flags with printed := false } }
      line' c1' [] hc
    rw [e1, e2]
    simp [hpr, reposition]
    rfl
  · intro hpr line c1 c2
    have e1 := console_print_out g cnsl line c1 [] hc
    have e2 := console_print_out g (console_print g cnsl line c1 []).1
      (console_print g cnsl line c1 []).2.1 c2 (console_print g cnsl line c1 []).2.2 hc
    rw [e2, e1, console_print_flags]
    simp [hpr]
    rfl

/-- Witness for C7: `hi_frame` rendered twice with the tables of a run
without options: the first output is one colour block and a line break, the
second output is the escape `ESC [ 1 F` followed by the same bytes. -/
theorem first_and_repeat_render_witness :
    main_setup [] true = some (Globals.initial, console_init) ∧
    (console_print Globals.initial hi_frame (fun _ => 0) 0 []).2.2 =
      bytes "\x1b[37;40mhi\x1b[0m\n" ∧
    (console_print Globals.initial (console_print Globals.initial hi_frame (fun _ => 0) 0 []).1
        (console_print Globals.initial hi_frame (fun _ => 0) 0 []).2.1 0
        (console_print Globals.initial hi_frame (fun _ => 0) 0 []).2.2).2.2 =
      bytes "\x1b[37;40mhi\x1b[0m\n\x1b[1F\x1b[37;40mhi\x1b[0m\n" :=
  ⟨rfl, by decide,
    ((first_and_repeat_render [] true Globals.initial console_init rfl hi_frame
      (by decide) (by decide)).2.2.2.2.2.2.2 rfl (fun _ => 0) 0 0).trans (by decide)⟩

/-! ## C8: the reposition escape in plain mode -/

theorem frame_output_plain (g : Globals) (cnsl : console) (hp : cnsl.flags.plain = true) :
    frame_output g cnsl = plain_text cnsl := by
  unfold frame_output plain_text row_output
  simp [hp]

/-- Counterexample to C8 as stated: with the plain flag set and a frame
already printed, `console_print` writes the cursor-reposition escape
`ESC [ 1 F` before the row; the state is reached by the second iteration of
a run with the options `-p` and `-w` on a terminal, whose output after two
iterations is the row, the escape and the row again. -/
theorem plain_mode_repositions :
    plain_again_frame.flags.plain = true ∧ plain_again_frame.flags.printed = true ∧
    (console_print Globals.initial plain_again_frame (fun _ => 0) 0 []).2.2 =
      bytes "\x1b[1FA\n" ∧
    main file_device plain_watch_env 2 = outcome.running (bytes "A\n\x1b[1FA\n") := by
  decide

/-- C8, amended: `console_print` writes the cursor-reposition escape exactly
when the printed flag is true, with the plain flag set as well as without:
its output is the escape for the frame's row count, if the flag is true,
followed by what a render with the flag false writes.  In plain mode with
the flag false the output is the text of the rows and their line breaks
only; this is the case in the single render of the configuration `main`
forces when stdout is not a terminal. -/
theorem reposition_iff_printed (g : Globals) (cnsl : console) (line : Nat → Nat) (c1 : Int)
    (out : List Nat) (hc : cnsl.attributes.columns ≤ 255) :
    (∀ line' c1', (console_print g cnsl line c1 out).2.2 =
      out ++ (if cnsl.flags.printed = true then bytes "\x1b[" ++ decimal cnsl.attributes.lines ++ bytes "F"
              else []) ++
        (console_print g { cnsl with flags := { cnsl.flags with printed := false } }
          line' c1' []).2.2) ∧
    (cnsl.flags.plain = true → cnsl.flags.printed = true →
      (console_print g cnsl line c1 out).2.2 =
        out ++ reposition cnsl.attributes.lines ++ plain_text cnsl) ∧
    (cnsl.flags.plain = true → cnsl.flags.printed = false →
      (console_print g cnsl line c1 out).2.2 = out ++ plain_text cnsl) ∧
    (∀ opts g0 c0, main_setup opts false = some (g0, c0) →
      c0.flags.plain = true ∧ c0.flags.printed = false ∧ c0.flags.watch = false) := by
  have e1 := console_print_out g cnsl line c1 out hc
  refine ⟨?_, ?_, ?_, ?_⟩
  · intro line' c1'
    have e2 := console_print_out g { cnsl with flags := { cnsl.flags with printed := false } }
      line' c1' [] hc
    rw [e1, e2]
    have e3 : frame_output g { cnsl with flags := { cnsl.flags with printed := false } } =
      frame_output g cnsl := rfl
    rw [e3]
    by_cases hpr : cnsl.flags.printed = true
    · simp [hpr, reposition]
    · simp [hpr]
  · intro hp hpr
    rw [e1, frame_output_plain g cnsl hp]
    simp [hpr]
  · intro hp hpr
    rw [e1, frame_output_plain g cnsl hp]
    simp [hpr]
  · intro opts g0 c0 h
    obtain ⟨-, -, a3, a4, a5⟩ := main_setup_spec opts false g0 c0 h
    exact ⟨by simpa using a3, a5, by simpa using a4⟩

/-- Witness for C8 amended: the plain frame with the printed flag true is
printed as the escape followed by the row. -/
theorem reposition_iff_printed_witness :
    plain_again_frame.attributes.columns ≤ 255 ∧
    (console_print Globals.initial plain_again_frame (fun _ => 0) 0 []).2.2 =
      [] ++ reposition 1 ++ bytes "A\n" :=
  ⟨by decide,
    ((reposition_iff_printed Globals.initial plain_again_frame (fun _ => 0) 0 []
      (by decide)).2.1 (by decide) (by decide)).trans (by decide)⟩

/-! ## C9: non-plain rows -/

/-- C9: in non-plain mode, for every row with at least one column and no
0x00 character, the output for the row is a non-empty sequence of blocks,
each `ESC [ fg ; bg bold m text ESC [ 0 m` with the table entries and bold
suffix of the run's attribute, followed by one line break; the text of every
block is non-empty, and the texts in order make up all characters of the
row in column order, trailing spaces included. -/
theorem colored_row_complete (g : Globals) (cnsl : console) (st : print_state) (i : Nat)
    (hplain : cnsl.flags.plain = false) (hcol : 0 < cnsl.attributes.columns)
    (hc : cnsl.attributes.columns ≤ 255)
    (hnul : ∀ j, j < cnsl.attributes.columns → cell_data (cnsl.chars i j) ≠ 0) :
    (row_step g cnsl st i).out =
      st.out ++ (runs (row_cells cnsl i)).flatMap (fun r =>
        bytes "\x1b[" ++ g.ansi_fg_color.getD (fg_index r.1) [] ++ bytes ";" ++
          g.ansi_bg_color.getD (bg_index r.1) [] ++
          (if bold_bit r.1 ≠ 0 then bytes ";1" else []) ++ bytes "m" ++ r.2 ++ bytes "\x1b[0m") ++
        [10] ∧
    runs (row_cells cnsl i) ≠ [] ∧
    (∀ r ∈ runs (row_cells cnsl i), r.2 ≠ []) ∧
    ((runs (row_cells cnsl i)).map (fun r => r.2)).flatten = row_chars cnsl i := by
  obtain ⟨n, hn⟩ : ∃ n, cnsl.attributes.columns = n + 1 := ⟨cnsl.attributes.columns - 1, by omega⟩
  have hruns : runs (row_cells cnsl i) =
      runs_from (cell_attr cnsl.mask (cnsl.chars i 0)) [cell_data (cnsl.chars i 0)]
        ((List.range' 1 n).map (fun j =>
          (cell_attr cnsl.mask (cnsl.chars i j), cell_data (cnsl.chars i j)))) := by
    unfold row_cells
    rw [hn, List.range_eq_range', List.range'_succ]
    rfl
  have hchars : row_chars cnsl i =
      [cell_data (cnsl.chars i 0)] ++
        ((List.range' 1 n).map (fun j =>
          (cell_attr cnsl.mask (cnsl.chars i j), cell_data (cnsl.chars i j)))).map (fun x => x.2) := by
    unfold row_chars
    rw [hn, List.range_eq_range', List.range'_succ]
    simp [Function.comp_def]
  have htexts : ((runs (row_cells cnsl i)).map (fun r => r.2)).flatten = row_chars cnsl i := by
    rw [hruns, runs_from_texts, hchars]
  have hne : ∀ r ∈ runs (row_cells cnsl i), r.2 ≠ [] := by
    rw [hruns]
    exact runs_from_nonempty _ _ _ (by simp)
  have hnonul : ∀ r ∈ runs (row_cells cnsl i), c_cut r.2 = r.2 := by
    intro r hr
    apply c_cut_eq_self
    intro b hb
    have hmem : b ∈ row_chars cnsl i := by
      rw [← htexts]
      exact List.mem_flatten.mpr ⟨r.2, List.mem_map.mpr ⟨r, hr, rfl⟩, hb⟩
    simp only [row_chars, List.mem_map, List.mem_range] at hmem
    obtain ⟨j, hj, rfl⟩ := hmem
    exact hnul j hj
  refine ⟨?_, ?_, hne, htexts⟩
  · rw [row_step_out g cnsl st i hc, row_output]
    simp only [hplain, Bool.false_eq_true, if_false]
    rw [← List.append_assoc]
    congr 2
    apply List.flatMap_congr
    intro r hr
    rw [hnonul r hr]
    simp [block, printf_colored, bytes]
  · rw [hruns]
    obtain ⟨r, rs, e⟩ := runs_from_cons
      ((List.range' 1 n).map (fun j =>
        (cell_attr cnsl.mask (cnsl.chars i j), cell_data (cnsl.chars i j))))
      (cell_attr cnsl.mask (cnsl.chars i 0)) [cell_data (cnsl.chars i 0)]
    rw [e]
    simp

/-- Witness for C9: the row `abc` with one attribute followed by `xyz` with
another is printed as two blocks with the texts `abc` and `xyz`. -/
theorem colored_row_complete_witness :
    (row_step Globals.initial two_run_frame print_start 0).out =
      bytes "\x1b[37;40mabc\x1b[0m\x1b[37;41;1mxyz\x1b[0m\n" ∧
    ((runs (row_cells two_run_frame 0)).map (fun r => r.2)).flatten =
      [97, 98, 99, 120, 121, 122] :=
  ⟨(colored_row_complete Globals.initial two_run_frame print_start 0 (by decide) (by decide)
      (by decide) (by decide)).1.trans (by decide),
    (colored_row_complete Globals.initial two_run_frame print_start 0 (by decide) (by decide)
      (by decide) (by decide)).2.2.2.trans (by decide)⟩

/-! ## C10: output that is not written to a terminal -/

theorem console_open_some (cnsl c : console) (num vfd tfd r : Int) (m : Nat)
    (h : console_open cnsl num vfd tfd r m = some c) :
    c.flags = cnsl.flags ∧ c.attributes = cnsl.attributes ∧ c.chars = cnsl.chars ∧ c.mask = m := by
  unfold console_open at h
  split at h
  · cases h
  · split at h
    · cases h
    · split at h
      · cases h
      · split at h
        · cases h
        · have e := Option.some.inj h
          subst e
          exact ⟨rfl, rfl, rfl, rfl⟩

theorem c_cut_initial (l : List Nat) : ∃ t, l = c_cut l ++ t :=
  ⟨l.dropWhile (fun b => decide (b ≠ 0)), (List.takeWhile_append_dropWhile _ l).symm⟩

theorem plain_row_initial (cnsl : console) (i : Nat) :
    ∃ t, row_chars cnsl i = c_cut (rtrim (row_chars cnsl i)) ++ t := by
  obtain ⟨t, ht⟩ := c_cut_initial (rtrim (row_chars cnsl i))
  refine ⟨t ++ List.replicate ((row_chars cnsl i).length - (rtrim (row_chars cnsl i)).length) 32, ?_⟩
  rw [← List.append_assoc, ← ht]
  exact (rtrim_spec (row_chars cnsl i)).1

theorem plain_row_byte (cnsl : console) (i k : Nat)
    (hk : k < (c_cut (rtrim (row_chars cnsl i))).length) :
    k < cnsl.attributes.columns ∧
      (c_cut (rtrim (row_chars cnsl i))).getD k 0 = cell_data (cnsl.chars i k) := by
  obtain ⟨t, ht⟩ := plain_row_initial cnsl i
  have hlen : (row_chars cnsl i).length = cnsl.attributes.columns := by simp [row_chars]
  have hlt : k < cnsl.attributes.columns := by
    have := congrArg List.length ht
    rw [List.length_append, hlen] at this
    omega
  refine ⟨hlt, ?_⟩
  have e1 : (row_chars cnsl i).getD k 0 = cell_data (cnsl.chars i k) := by
    simp [row_chars, List.getD_eq_getElem?_getD, hlt]
  rw [← e1]
  conv_rhs => rw [ht]
  rw [List.getD_append _ _ _ _ hk]

theorem plain_text_mem (cnsl : console) (b : Nat) (hb : b ∈ plain_text cnsl) :
    b = 10 ∨ ∃ i j, i < cnsl.attributes.lines ∧ j < cnsl.attributes.columns ∧
      b = cell_data (cnsl.chars i j) := by
  unfold plain_text at hb
  rw [List.mem_flatMap] at hb
  obtain ⟨i, hi, hb⟩ := hb
  rw [List.mem_append] at hb
  rcases hb with hb | hb
  · right
    obtain ⟨k, hk, e⟩ := List.getElem_of_mem hb
    obtain ⟨h1, h2⟩ := plain_row_byte cnsl i k hk
    rw [List.getD_eq_getElem _ _ hk, e] at h2
    exact ⟨i, k, List.mem_range.mp hi, h1, h2⟩
  · left
    simpa using hb

/-- C10: in the configuration `main` forces when stdout is not a terminal
the plain flag is set and the watch and printed flags are clear; a run ends
after at most one `console_print`, made for a console with these flags; the
output of that `console_print` is, row by row, an initial part of the row's
characters followed by a line break, so every byte of it other than the line
breaks is the character byte of a cell, an ESC byte occurs in it only as the
character of a cell, and a frame without an ESC character gives an output
without any ESC byte. -/
theorem escape_free_when_not_terminal (opts : List Char) (g : Globals) (c0 : console)
    (hs : main_setup opts false = some (g, c0)) :
    c0.flags.plain = true ∧ c0.flags.watch = false ∧ c0.flags.printed = false ∧
    (∀ {σ : Type} (D : Device σ) (env : environment σ) (fuel : Nat),
      env.opts = opts → env.isatty = false →
      main D env (fuel + 1) = outcome.exited 1 [] ∨
      ∃ cnsl, cnsl.flags = c0.flags ∧
        main D env (fuel + 1) = outcome.exited 0 (console_print g cnsl (fun _ => 0) 0 []).2.2) ∧
    (∀ (cnsl : console) (line : Nat → Nat) (c1 : Int),
      cnsl.flags = c0.flags → cnsl.attributes.columns ≤ 255 →
      (console_print g cnsl line c1 []).2.2 =
        (List.range cnsl.attributes.lines).flatMap
          (fun i => c_cut (rtrim (row_chars cnsl i)) ++ [10]) ∧
      (∀ i k, k < (c_cut (rtrim (row_chars cnsl i))).length →
        k < cnsl.attributes.columns ∧
        (c_cut (rtrim (row_chars cnsl i))).getD k 0 = cell_data (cnsl.chars i k)) ∧
      (27 ∈ (console_print g cnsl line c1 []).2.2 →
        ∃ i j, i < cnsl.attributes.lines ∧ j < cnsl.attributes.columns ∧
          cell_data (cnsl.chars i j) = 27) ∧
      ((∀ i j, i < cnsl.attributes.lines → j < cnsl.attributes.columns →
          cell_data (cnsl.chars i j) ≠ 27) →
        27 ∉ (console_print g cnsl line c1 []).2.2)) := by
  obtain ⟨-, -, a3, a4, a5⟩ := main_setup_spec opts false g c0 hs
  have hplain : c0.flags.plain = true := by simpa using a3
  have hwatch : c0.flags.watch = false := by simpa using a4
  have hout : ∀ (cnsl : console) (line : Nat → Nat) (c1 : Int),
      cnsl.flags = c0.flags → cnsl.attributes.columns ≤ 255 →
      (console_print g cnsl line c1 []).2.2 = plain_text cnsl := by
    intro cnsl line c1 hf hc
    rw [console_print_out g cnsl line c1 [] hc, frame_output_plain g cnsl (by rw [hf]; exact hplain)]
    simp [hf, a5]
  have hesc : ∀ (cnsl : console) (line : Nat → Nat) (c1 : Int),
      cnsl.flags = c0.flags → cnsl.attributes.columns ≤ 255 →
      27 ∈ (console_print g cnsl line c1 []).2.2 →
        ∃ i j, i < cnsl.attributes.lines ∧ j < cnsl.attributes.columns ∧
          cell_data (cnsl.chars i j) = 27 := by
    intro cnsl line c1 hf hc hmem
    rw [hout cnsl line c1 hf hc] at hmem
    rcases plain_text_mem cnsl 27 hmem with h | ⟨i, j, hi, hj, e⟩
    · omega
    · exact ⟨i, j, hi, hj, e.symm⟩
  refine ⟨hplain, hwatch, a5, ?_, ?_⟩
  · intro σ D env fuel ho hi
    unfold main
    rw [ho, hi, hs]
    simp only []
    cases env.tty with
    | none => exact Or.inl rfl
    | some num =>
      simp only []
      cases h1 : console_open c0 num env.vfd env.tfd env.ioctl_ret env.hifontmask with
      | none => exact Or.inl rfl
      | some cnsl1 =>
        simp only []
        obtain ⟨f1, -⟩ := console_open_some c0 cnsl1 num _ _ _ _ h1
        unfold main_loop
        cases h2 : console_read D cnsl1 env.dev with
        | none => exact Or.inl rfl
        | some s =>
          obtain ⟨f2, -⟩ := console_read_some D cnsl1 env.dev s h2
          right
          refine ⟨s.1, by rw [f2, f1], ?_⟩
          have hw : (console_print g s.1 (fun _ => 0) 0 []).1.flags.watch = false := by
            rw [console_print_flags]
            simp [f2, f1, hwatch]
          simp [hw]
  · intro cnsl line c1 hf hc
    refine ⟨hout cnsl line c1 hf hc, fun i k hk => plain_row_byte cnsl i k hk,
      hesc cnsl line c1 hf hc, ?_⟩
    intro hno hmem
    obtain ⟨i, j, hi, hj, e⟩ := hesc cnsl line c1 hf hc hmem
    exact hno i j hi hj e

/-- Witness for C10: a run with option `-w` whose stdout is not a terminal
starts in plain mode without watch; the frame `A B ` is printed as the text
`A B` and a line break, and the run renders it once and exits. -/
theorem escape_free_when_not_terminal_witness :
    main_setup ['w'] false = some (Globals.initial, pipe_console) ∧
    (console_print Globals.initial pipe_frame (fun _ => 0) 0 []).2.2 = bytes "A B\n" ∧
    main file_device pipe_env 5 = outcome.exited 0 (bytes "A B\n") :=
  ⟨rfl,
    ((escape_free_when_not_terminal ['w'] Globals.initial pipe_console rfl).2.2.2.2
      pipe_frame (fun _ => 0) 0 rfl (by decide)).1.trans (by decide),
    by decide⟩

/-! ## C11: the output is determined by the frame -/

theorem row_output_congr (g : Globals) (a b : console) (i : Nat)
    (hcols : a.attributes.columns = b.attributes.columns)
    (hcells : ∀ j, j < a.attributes.columns → a.chars i j = b.chars i j)
    (hmask : a.mask = b.mask) (hplain : a.flags.plain = b.flags.plain) :
    row_output g a i = row_output g b i := by
  have e1 : row_chars a i = row_chars b i := by
    unfold row_chars
    rw [← hcols]
    apply List.map_congr_left
    intro j hj
    rw [hcells j (List.mem_range.mp hj)]
  have e2 : row_cells a i = row_cells b i := by
    unfold row_cells
    rw [← hcols, ← hmask]
    apply List.map_congr_left
    intro j hj
    rw [hcells j (List.mem_range.mp hj)]
  unfold row_output
  rw [e1, e2, hplain]

theorem frame_output_congr (g : Globals) (a b : console)
    (hrows : a.attributes.lines = b.attributes.lines)
    (hcols : a.attributes.columns = b.attributes.columns)
    (hcells : ∀ i j, i < a.attributes.lines → j < a.attributes.columns →
      a.chars i j = b.chars i j)
    (hmask : a.mask = b.mask) (hplain : a.flags.plain = b.flags.plain) :
    frame_output g a = frame_output g b := by
  unfold frame_output
  rw [← hrows]
  apply List.flatMap_congr
  intro i hi
  exact row_output_congr g a b i hcols (fun j hj => hcells i j (List.mem_range.mp hi) hj)
    hmask hplain

theorem console_read_file (cnsl : console) (bs : List Nat)
    (hlen : 4 + 2 * (bs.getD 0 0 * bs.getD 1 0) ≤ bs.length) :
    ∃ s, console_read file_device cnsl { data := bs, pos := 0, nread := 0 } = some s ∧
      s.1.attributes =
        { lines := bs.getD 0 0, columns := bs.getD 1 0, x := bs.getD 2 0, y := bs.getD 3 0 } ∧
      s.1.flags = cnsl.flags ∧ s.1.mask = cnsl.mask ∧
      ∀ i j, i < bs.getD 0 0 → j < bs.getD 1 0 →
        s.1.chars i j =
          bs.getD (4 + 2 * (i * bs.getD 1 0 + j)) 0 +
            256 * bs.getD (4 + 2 * (i * bs.getD 1 0 + j) + 1) 0 := by
  have h4 : 4 ≤ bs.length := by omega
  have hr : file_device.read { data := bs, pos := 0, nread := 0 } 4 =
      (bs.take 4, { data := bs, pos := 4, nread := 4 }) := by
    simp [file_device, List.length_take, Nat.min_eq_left h4]
  have g : ∀ k, k < 4 → (bs.take 4).getD k 0 = bs.getD k 0 := by
    intro k hk
    have := getD_take_drop bs 0 4 k hk
    simpa using this
  have hcore : console_read_core file_device { data := bs, pos := 0, nread := 0 } 4 =
      some (bs.take 4, { data := bs, pos := 4, nread := 4 }) := by
    unfold console_read_core
    rw [hr]
    have : (bs.take 4).length = 4 := by rw [List.length_take]; omega
    simp [this]
  obtain ⟨st', f1, -, -, -, f5, -⟩ := file_rows bs (bs.getD 1 0) (bs.getD 0 0) 0
    ({ cnsl with attributes :=
        { lines := bs.getD 0 0, columns := bs.getD 1 0, x := bs.getD 2 0, y := bs.getD 3 0 } },
      { data := bs, pos := 4, nread := 4 }) rfl (by simp) rfl (by simpa using hlen)
  obtain ⟨a1, a2, a3⟩ := read_rows_some file_device _ _ st' f1
  refine ⟨(st'.1, if cnsl.flags.watch = true then file_device.rewind st'.2 else st'.2),
    ?_, a1, a2, a3, ?_⟩
  · unfold console_read
    rw [hcore]
    simp only [g 0 (by omega), g 1 (by omega), g 2 (by omega), g 3 (by omega)]
    rw [List.range_eq_range', f1]
  · intro i j hi hj
    exact f5 i j (by omega) (by omega) hj

/-- C11: two consoles that agree on the row count, the column count, the
cells inside the rows x columns area, the font mask, the plain flag and the
printed flag give, with the same colour tables, the same output of
`console_print`, whatever their cursor fields, their other fields, the
cells outside the area, the old content of the line buffer and the start
value of `c` are.  So the output for a frame read from a byte sequence does
not depend on what the console held before the read. -/
theorem render_depends_on_frame_only (g : Globals) (a b : console) (la lb : Nat → Nat)
    (ca cb : Int) (out : List Nat)
    (hrows : a.attributes.lines = b.attributes.lines)
    (hcols : a.attributes.columns = b.attributes.columns)
    (hcells : ∀ i j, i < a.attributes.lines → j < a.attributes.columns →
      a.chars i j = b.chars i j)
    (hmask : a.mask = b.mask) (hplain : a.flags.plain = b.flags.plain)
    (hprinted : a.flags.printed = b.flags.printed)
    (hc : a.attributes.columns ≤ 255) :
    (console_print g a la ca out).2.2 = (console_print g b lb cb out).2.2 ∧
    ∀ (bs : List Nat), 4 + 2 * (bs.getD 0 0 * bs.getD 1 0) ≤ bs.length → bs.getD 1 0 ≤ 255 →
      ∃ sa sb, console_read file_device a { data := bs, pos := 0, nread := 0 } = some sa ∧
        console_read file_device b { data := bs, pos := 0, nread := 0 } = some sb ∧
        (console_print g sa.1 la ca out).2.2 = (console_print g sb.1 lb cb out).2.2 := by
  have main : ∀ (a b : console),
      a.attributes.lines = b.attributes.lines → a.attributes.columns = b.attributes.columns →
      (∀ i j, i < a.attributes.lines → j < a.attributes.columns → a.chars i j = b.chars i j) →
      a.mask = b.mask → a.flags.plain = b.flags.plain → a.flags.printed = b.flags.printed →
      a.attributes.columns ≤ 255 →
      (console_print g a la ca out).2.2 = (console_print g b lb cb out).2.2 := by
    intro a b hrows hcols hcells hmask hplain hprinted hc
    rw [console_print_out g a la ca out hc,
      console_print_out g b lb cb out (by rw [← hcols]; exact hc),
      frame_output_congr g a b hrows hcols hcells hmask hplain, hprinted, hrows]
  refine ⟨main a b hrows hcols hcells hmask hplain hprinted hc, ?_⟩
  intro bs hlen hcol
  obtain ⟨sa, ra, a1, a2, a3, a4⟩ := console_read_file a bs hlen
  obtain ⟨sb, rb, b1, b2, b3, b4⟩ := console_read_file b bs hlen
  refine ⟨sa, sb, ra, rb, main sa.1 sb.1 (by rw [a1, b1]) (by rw [a1, b1]) ?_
    (by rw [a3, b3, hmask]) (by rw [a2, b2, hplain]) (by rw [a2, b2, hprinted])
    (by rw [a1]; exact hcol)⟩
  intro i j hi hj
  rw [a1] at hi hj
  rw [a4 i j hi hj, b4 i j hi hj]

/-- Witness for C11: `hi_frame` and `hi_frame_dirty` hold the same frame and
differ in the cursor, the other flags, the cells outside the frame, the line
buffer and `c`; both are printed as the same bytes. -/
theorem render_depends_on_frame_only_witness :
    (console_print Globals.initial hi_frame (fun _ => 0) 0 []).2.2 =
      (console_print Globals.initial hi_frame_dirty (fun _ => 88) (-1) []).2.2 ∧
    (console_print Globals.initial hi_frame_dirty (fun _ => 88) (-1) []).2.2 =
      bytes "\x1b[37;40mhi\x1b[0m\n" :=
  ⟨(render_depends_on_frame_only Globals.initial hi_frame hi_frame_dirty (fun _ => 0) (fun _ => 88)
      0 (-1) [] rfl rfl
      (by
        intro i j hi hj
        have hi1 : i < 1 := hi
        have hj2 : j < 2 := hj
        interval_cases i
        interval_cases j <;> rfl)
      rfl rfl rfl (by decide)).1,
    by decide⟩

/-! ## C12: the bit-reversal table -/

/-- C12: for every index `i` in 0..7 the entry `reverse_bits[i]` is `i` with
its three bits reversed (bit 0 and bit 2 swapped, bit 1 kept); the table is
`[0,4,2,6,1,5,3,7]`, a permutation of 0..7 that is its own inverse; with
font mask 0 the attribute byte 0b00000001 gives the foreground index 4 and
is printed with the foreground code 34. -/
theorem reverse_bits_reverses :
    (∀ i : Fin 8,
      reverse_bits.getD i.val 0 =
        (((i.val &&& 1) <<< 2) ||| (i.val &&& 2) ||| ((i.val >>> 2) &&& 1)) ∧
      reverse_bits.getD (reverse_bits.getD i.val 0) 0 = i.val) ∧
    reverse_bits = [0, 4, 2, 6, 1, 5, 3, 7] ∧
    List.Perm reverse_bits (List.range 8) ∧
    (∀ ch : Fin 256, fg_index (cell_attr 0 (0x0100 + ch.val)) = 4) ∧
    (console_print_buffer Globals.initial hi_frame (fun _ => 65) 1 (cell_attr 0 0x0141) []).2 =
      bytes "\x1b[34;40mA\x1b[0m" := by
  refine ⟨by decide, rfl, by decide, ?_, by decide⟩
  set_option maxRecDepth 1000000 in decide

/-! ## C13: rows without columns and the line breaks -/

theorem row_output_body (g : Globals) (cnsl : console) (i : Nat) :
    row_output g cnsl i = row_body g cnsl i ++ [10] := rfl

theorem row_body_no_columns (g : Globals) (cnsl : console) (i : Nat)
    (h0 : cnsl.attributes.columns = 0) : row_body g cnsl i = [] := by
  unfold row_body row_chars row_cells
  rw [h0]
  by_cases hp : cnsl.flags.plain = true
  · simp [hp, rtrim, c_cut]
  · simp [hp, runs]

/-- C13: the output of a first render is, for the rows `i = 0 .. rows-1` in
order, the output of row `i` followed by one line break, and each pass of
the row loop appends exactly that; when `columns` is 0 the output of every
row is empty and the whole output is `rows` line breaks, in plain and in
non-plain mode alike; when `rows` is 0 the output is empty. -/
theorem rows_and_line_breaks (g : Globals) (cnsl : console) (line : Nat → Nat) (c1 : Int)
    (hc : cnsl.attributes.columns ≤ 255) (hpr : cnsl.flags.printed = false) :
    (console_print g cnsl line c1 []).2.2 =
      (List.range cnsl.attributes.lines).flatMap (fun i => row_body g cnsl i ++ [10]) ∧
    (∀ st i, (row_step g cnsl st i).out = st.out ++ row_body g cnsl i ++ [10]) ∧
    (cnsl.attributes.columns = 0 →
      (∀ i, row_body g cnsl i = []) ∧
      (console_print g cnsl line c1 []).2.2 = List.replicate cnsl.attributes.lines 10) ∧
    (cnsl.attributes.lines = 0 → (console_print g cnsl line c1 []).2.2 = []) := by
  have e : (console_print g cnsl line c1 []).2.2 =
      (List.range cnsl.attributes.lines).flatMap (fun i => row_body g cnsl i ++ [10]) := by
    rw [console_print_out g cnsl line c1 [] hc, hpr]
    simp only [Bool.false_eq_true, if_false, List.append_nil, List.nil_append]
    rfl
  refine ⟨e, ?_, ?_, ?_⟩
  · intro st i
    rw [row_step_out g cnsl st i hc, row_output_body, List.append_assoc]
  · intro h0
    refine ⟨fun i => row_body_no_columns g cnsl i h0, ?_⟩
    rw [e]
    simp only [row_body_no_columns g cnsl _ h0, List.nil_append]
    generalize cnsl.attributes.lines = n
    induction n with
    | zero => rfl
    | succ n ih => rw [List.range_succ, List.flatMap_append, ih, List.replicate_succ']; rfl
  · intro h0
    rw [e, h0]
    rfl

/-- Witness for C13: a non-plain frame of three rows without columns is
printed as three line breaks. -/
theorem rows_and_line_breaks_witness :
    empty_rows_frame.flags.plain = false ∧
    (console_print Globals.initial empty_rows_frame (fun _ => 0) 0 []).2.2 = [10, 10, 10] :=
  ⟨rfl,
    ((rows_and_line_breaks Globals.initial empty_rows_frame (fun _ => 0) 0 (by decide) rfl).2.2.1
      rfl).2.trans (by decide)⟩

/-! ## C15: runs and the attribute byte -/

theorem runs_from_cells (l : List (Int × Nat)) :
    ∀ (c : Int) (pend : List Nat),
      run_cells (runs_from c pend l) = pend.map (fun d => (c, d)) ++ l := by
  induction l with
  | nil => intro c pend; simp [runs_from, run_cells]
  | cons x l ih =>
    intro c pend
    unfold runs_from
    by_cases h : x.1 = c
    · simp only [h, ne_eq, not_true_eq_false, if_false]
      rw [ih]
      simp [← h]
    · simp only [h, ne_eq, not_false_eq_true, if_true]
      have e := ih x.1 [x.2]
      unfold run_cells at e ⊢
      rw [List.flatMap_cons, e]
      simp

theorem runs_from_head (l : List (Int × Nat)) :
    ∀ (c : Int) (pend : List Nat), ∃ p rs, runs_from c pend l = (c, p) :: rs := by
  induction l with
  | nil => intro c pend; exact ⟨pend, [], rfl⟩
  | cons x l ih =>
    intro c pend
    unfold runs_from
    by_cases h : x.1 = c
    · simp only [h, ne_eq, not_true_eq_false, if_false]
      exact ih c _
    · simp only [h, ne_eq, not_false_eq_true, if_true]
      exact ⟨pend, _, rfl⟩

theorem runs_from_chain (l : List (Int × Nat)) :
    ∀ (c : Int) (pend : List Nat),
      List.Chain' (fun r s : Int × List Nat => r.1 ≠ s.1) (runs_from c pend l) := by
  induction l with
  | nil => intro c pend; simp [runs_from]
  | cons x l ih =>
    intro c pend
    unfold runs_from
    by_cases h : x.1 = c
    · simp only [h, ne_eq, not_true_eq_false, if_false]
      exact ih c _
    · simp only [h, ne_eq, not_false_eq_true, if_true]
      obtain ⟨p, rs, e⟩ := runs_from_head l x.1 [x.2]
      have hc := ih x.1 [x.2]
      rw [e] at hc ⊢
      exact List.Chain'.cons (fun h2 => h h2.symm) hc

/-- C15: in non-plain mode, for every row with at least one column and every
font mask, the output for the row is one block per run; a run starts at
column `j >= 1` exactly when the `attr` value computed for cell `j` differs
from the one computed for cell `j-1`; every cell lies in a run with its own
`attr` value, so the cells of a block share the `attr` value, and with it the
decoded attribute, that the block is printed with; and two consecutive runs
have different `attr` values. -/
theorem runs_split_on_attribute_byte (g : Globals) (cnsl : console) (st : print_state)
    (i : Nat) (hplain : cnsl.flags.plain = false) (hcol : 0 < cnsl.attributes.columns)
    (hc : cnsl.attributes.columns ≤ 255) :
    (row_step g cnsl st i).out =
      st.out ++ (runs (row_cells cnsl i)).flatMap (fun r => block g r.1 (c_cut r.2)) ++ [10] ∧
    (∀ j, 1 ≤ j → j < cnsl.attributes.columns →
      (j ∈ run_starts 0 (runs (row_cells cnsl i)) ↔
        cell_attr cnsl.mask (cnsl.chars i j) ≠ cell_attr cnsl.mask (cnsl.chars i (j - 1)))) ∧
    run_cells (runs (row_cells cnsl i)) = row_cells cnsl i ∧
    (run_cells (runs (row_cells cnsl i))).map (fun x => decoded x.1) =
      (List.range cnsl.attributes.columns).map (cell_decoded cnsl i) ∧
    List.Chain' (fun r s : Int × List Nat => r.1 ≠ s.1) (runs (row_cells cnsl i)) := by
  obtain ⟨n, hn⟩ : ∃ n, cnsl.attributes.columns = n + 1 := ⟨cnsl.attributes.columns - 1, by omega⟩
  have hcells : row_cells cnsl i =
      (cell_attr cnsl.mask (cnsl.chars i 0), cell_data (cnsl.chars i 0)) ::
        (List.range' 1 n).map (fun j =>
          (cell_attr cnsl.mask (cnsl.chars i j), cell_data (cnsl.chars i j))) := by
    unfold row_cells
    rw [hn, List.range_eq_range', List.range'_succ]
    rfl
  have hrc : run_cells (runs (row_cells cnsl i)) = row_cells cnsl i := by
    rw [hcells]
    simp only [runs]
    rw [runs_from_cells]
    simp
  refine ⟨?_, fun j h1 hj => row_runs_starts cnsl i j h1 hj, hrc, ?_, ?_⟩
  · rw [row_step_out g cnsl st i hc, row_output]
    simp [hplain]
  · rw [hrc]
    simp [row_cells, cell_decoded, Function.comp_def]
  · rw [hcells]
    simp only [runs]
    exact runs_from_chain _ _ _

/-- Witness for C15: in `blink_frame` the two cells have the `attr` values 7
and -121 (attribute bytes 0x07 and 0x87); a run starts at column 1 and the
two runs carry these two values. -/
theorem runs_split_on_attribute_byte_witness :
    cell_attr blink_frame.mask (blink_frame.chars 0 1) ≠
      cell_attr blink_frame.mask (blink_frame.chars 0 0) ∧
    1 ∈ run_starts 0 (runs (row_cells blink_frame 0)) ∧
    runs (row_cells blink_frame 0) = [(7, [65]), (-121, [66])] :=
  ⟨by decide,
    ((runs_split_on_attribute_byte Globals.initial blink_frame print_start 0 rfl (by decide)
      (by decide)).2.1 1 (by decide) (by decide)).mpr (by decide),
    by decide⟩

/-! ## C16: a NUL character in the buffer -/

theorem c_cut_eq_self_iff (l : List Nat) : c_cut l = l ↔ 0 ∉ l := by
  unfold c_cut
  rw [List.takeWhile_eq_self_iff]
  constructor
  · intro h h0
    have := h 0 h0
    simp at this
  · intro h b hb
    have : b ≠ 0 := fun e => h (e ▸ hb)
    simpa using this

/-- C16: for a buffer of `n <= 255` characters, the text
`console_print_buffer` prints is, in plain mode, the buffer without its
trailing spaces, cut before its first 0x00 byte, and in non-plain mode the
buffer cut before its first 0x00 byte, between the colour-start and the
colour-reset escape; the printed text is the trimmed (plain) or the whole
(non-plain) character sequence exactly when that sequence has no 0x00 byte. -/
theorem nul_cuts_printed_text (g : Globals) (cnsl : console) (buffer : Nat → Nat) (n : Nat)
    (attr : Int) (out : List Nat) (hn : n ≤ 255) :
    (cnsl.flags.plain = true →
      (console_print_buffer g cnsl buffer n attr out).2 =
        out ++ (rtrim (buf_take buffer n)).takeWhile (fun b => decide (b ≠ 0)) ∧
      ((rtrim (buf_take buffer n)).takeWhile (fun b => decide (b ≠ 0)) = rtrim (buf_take buffer n) ↔
        0 ∉ rtrim (buf_take buffer n))) ∧
    (cnsl.flags.plain = false →
      (console_print_buffer g cnsl buffer n attr out).2 =
        out ++ block g attr ((buf_take buffer n).takeWhile (fun b => decide (b ≠ 0))) ∧
      ((buf_take buffer n).takeWhile (fun b => decide (b ≠ 0)) = buf_take buffer n ↔
        0 ∉ buf_take buffer n)) := by
  have e := console_print_buffer_out g cnsl buffer n attr out hn
  constructor
  · intro hp
    rw [e]
    simp only [hp, if_true]
    exact ⟨rfl, c_cut_eq_self_iff _⟩
  · intro hp
    rw [e]
    simp only [hp, Bool.false_eq_true, if_false]
    exact ⟨rfl, c_cut_eq_self_iff _⟩

/-- Witness for C16: the buffer `A`, NUL, `B`, space is printed as `A` in
plain mode and as a block with the text `A` in non-plain mode. -/
theorem nul_cuts_printed_text_witness :
    (console_print_buffer Globals.initial nul_frame
      (fun k => if k = 0 then 65 else if k = 1 then 0 else if k = 2 then 66 else 32) 4 7 []).2 =
        [65] ∧
    (console_print_buffer Globals.initial nul_colored_frame
      (fun k => if k = 0 then 65 else if k = 1 then 0 else if k = 2 then 66 else 32) 4 7 []).2 =
        bytes "\x1b[37;40mA\x1b[0m" :=
  ⟨((nul_cuts_printed_text Globals.initial nul_frame _ 4 7 [] (by decide)).1 rfl).1.trans
      (by decide),
    ((nul_cuts_printed_text Globals.initial nul_colored_frame _ 4 7 [] (by decide)).2 rfl).1.trans
      (by decide)⟩

/-! ## C17: the device number -/

theorem and_not_63 (x : Nat) (hx : x < 2 ^ 32) : x &&& 4294967232 = 0 ↔ x < 64 := by
  have hM : ∀ i, (4294967232 : Nat).testBit i = (decide (i < 32) && !(63 : Nat).testBit i) := by
    intro i
    have := Nat.testBit_two_pow_sub_succ (x := 63) (n := 32) (by norm_num) i
    simpa using this
  have h63 : ∀ i, 6 ≤ i → (63 : Nat).testBit i = false := by
    intro i hi
    apply Nat.testBit_lt_two_pow
    calc 63 < 2 ^ 6 := by norm_num
      _ ≤ 2 ^ i := Nat.pow_le_pow_right (by norm_num) hi
  have h63low : ∀ i : Fin 6, (63 : Nat).testBit i.val = true := by decide
  constructor
  · intro h
    have : x < 2 ^ 6 := by
      apply Nat.lt_pow_two_of_testBit
      intro i hi
      by_cases h32 : i < 32
      · have hb := congrArg (fun y => Nat.testBit y i) h
        simp only [Nat.testBit_and, hM, h63 i hi, h32, Nat.zero_testBit] at hb
        simpa using hb
      · apply Nat.testBit_lt_two_pow
        calc x < 2 ^ 32 := hx
          _ ≤ 2 ^ i := Nat.pow_le_pow_right (by norm_num) (by omega)
    simpa using this
  · intro h
    apply Nat.eq_of_testBit_eq
    intro i
    rw [Nat.testBit_and, Nat.zero_testBit, hM]
    by_cases h6 : i < 6
    · simp [h63low ⟨i, h6⟩]
    · have : x.testBit i = false := by
        apply Nat.testBit_lt_two_pow
        calc x < 2 ^ 6 := by simpa using h
          _ ≤ 2 ^ i := Nat.pow_le_pow_right (by norm_num) (by omega)
      simp [this]

theorem range_test (num : Int) (hr : int_range num) :
    u32 num &&& u32 (~~~ (0x3f : Int)) ≠ 0 ↔ num < 0 ∨ 63 < num := by
  have e : u32 (~~~ (0x3f : Int)) = 4294967232 := by decide
  have hx : u32 num < 2 ^ 32 := by unfold u32; omega
  unfold int_range at hr
  rw [e, ne_eq, and_not_63 _ hx]
  unfold u32
  omega

/-- C17: for every `int` value `num` the test `num & ~0x3f` of `console_open`
is non-zero exactly when `num` is negative or greater than 63; then
`console_open` ends the process whatever the `open` and `ioctl` calls would
return, and for a number in 0..63 it ends the process only when one of
these calls fails. -/
theorem device_number_range (num : Int) (hr : int_range num) :
    (u32 num &&& u32 (~~~ (0x3f : Int)) ≠ 0 ↔ num < 0 ∨ 63 < num) ∧
    (num < 0 ∨ 63 < num →
      ∀ cnsl vfd tfd r m, console_open cnsl num vfd tfd r m = none) ∧
    (0 ≤ num ∧ num ≤ 63 →
      ∀ cnsl vfd tfd r m, console_open cnsl num vfd tfd r m =
        if vfd < 0 ∨ tfd < 0 ∨ r ≠ 0 then none
        else some { cnsl with vfd := vfd, tfd := tfd, mask := m }) ∧
    (∀ cnsl vfd tfd m, 0 ≤ vfd → 0 ≤ tfd →
      (console_open cnsl num vfd tfd 0 m = none ↔ num < 0 ∨ 63 < num)) := by
  have ht := range_test num hr
  refine ⟨ht, ?_, ?_, ?_⟩
  · intro h cnsl vfd tfd r m
    unfold console_open
    rw [if_pos (ht.mpr h)]
  · intro h cnsl vfd tfd r m
    have hz : ¬ (u32 num &&& u32 (~~~ (0x3f : Int)) ≠ 0) := by
      rw [ht]; omega
    unfold console_open
    rw [if_neg hz]
    by_cases h1 : vfd < 0
    · simp [h1]
    · by_cases h2 : tfd < 0
      · simp [h1, h2]
      · by_cases h3 : r = 0
        · simp [h1, h2, h3]
        · simp [h1, h2, h3]
  · intro cnsl vfd tfd m hv htf
    unfold console_open
    by_cases hz : u32 num &&& u32 (~~~ (0x3f : Int)) ≠ 0
    · rw [if_pos hz]
      simp only [true_iff]
      exact ht.mp hz
    · rw [if_neg hz, if_neg (by omega), if_neg (by omega)]
      simp only [ne_eq, not_true_eq_false, if_false]
      constructor
      · intro h; cases h
      · intro h; exact absurd (ht.mpr h) hz

/-- Witness for C17: the numbers -1 and 64 are rejected, the numbers 0 and
63 are accepted when the devices open. -/
theorem device_number_range_witness :
    console_open console_init (-1) 3 4 0 0 = none ∧
    console_open console_init 64 3 4 0 0 = none ∧
    (console_open console_init 0 3 4 0 0).isSome = true ∧
    (console_open console_init 63 3 4 0 0).isSome = true :=
  ⟨(device_number_range (-1) (by unfold int_range; omega)).2.1 (by omega) _ _ _ _ _,
    (device_number_range 64 (by unfold int_range; omega)).2.1 (by omega) _ _ _ _ _,
    by decide, by decide⟩

/-! ## C14: every array access is in bounds -/

theorem fold_checked_ok {α β : Type} (f : β → α → β) (fc : β → α → checked β) :
    ∀ (l : List α), (∀ a ∈ l, ∀ b, fc b a = checked.ok (f b a)) →
      ∀ b, fold_checked fc l b = checked.ok (l.foldl f b) := by
  intro l
  induction l with
  | nil => intro _ b; rfl
  | cons a l ih =>
    intro h b
    simp only [fold_checked, List.foldl_cons]
    rw [h a (List.mem_cons_self _ _) b]
    exact ih (fun x hx => h x (List.mem_cons_of_mem _ hx)) _

theorem table_at_ok {α : Type} (tbl : List α) (k : Nat) (d : α) (h : k < tbl.length) :
    table_at tbl k = checked.ok (tbl.getD k d) := by
  unfold table_at
  rw [List.getD_eq_getElem _ _ h, List.getElem?_eq_getElem h]

theorem c_string_checked_ok (b : Nat → Nat) :
    ∀ (n fuel k : Nat), b (k + n) = 0 → n < fuel →
      c_string_checked b fuel k = checked.ok (c_string b fuel k) := by
  intro n
  induction n with
  | zero =>
    intro fuel k hz hf
    obtain ⟨f, rfl⟩ : ∃ f, fuel = f + 1 := ⟨fuel - 1, by omega⟩
    simp at hz
    simp [c_string_checked, c_string, hz]
  | succ n ih =>
    intro fuel k hz hf
    obtain ⟨f, rfl⟩ : ∃ f, fuel = f + 1 := ⟨fuel - 1, by omega⟩
    have h := ih f (k + 1) (by rw [← hz]; congr 1; omega) (by omega)
    by_cases hb : b k = 0
    · simp [c_string_checked, c_string, hb]
    · simp only [c_string_checked, c_string, hb, if_false]
      rw [h]
      rfl

theorem trim_loop_checked_ok (b : Nat → Nat) :
    ∀ n, n ≤ 256 → trim_loop_checked b n = checked.ok (trim_loop b n) := by
  intro n
  induction n with
  | zero => intro _; rfl
  | succ n ih =>
    intro hn
    have hlt : n < MAX_COLUMNS + 1 := by unfold MAX_COLUMNS; omega
    simp only [trim_loop_checked, trim_loop, hlt, if_true]
    by_cases hb : b n = 32
    · simp only [hb, ne_eq, not_true_eq_false, if_false]
      exact ih (by omega)
    · simp [hb]

theorem console_print_buffer_checked_ok (g : Globals) (cnsl : console) (b : Nat → Nat)
    (n : Nat) (attr : Int) (out : List Nat) (hn : n ≤ 255)
    (hfg : g.ansi_fg_color.length = 8) (hbg : g.ansi_bg_color.length = 8) :
    console_print_buffer_checked g cnsl b n attr out =
      checked.ok (console_print_buffer g cnsl b n attr out) := by
  have hlt : n < MAX_COLUMNS + 1 := by unfold MAX_COLUMNS; omega
  unfold console_print_buffer_checked console_print_buffer
  simp only [hlt, if_true]
  by_cases hp : cnsl.flags.plain = true
  · simp only [hp, if_true]
    rw [trim_loop_checked_ok _ n (by omega)]
    have hle := trim_loop_le (Function.update b n 0) n
    have hlt2 : trim_loop (Function.update b n 0) n < MAX_COLUMNS + 1 := by
      unfold MAX_COLUMNS; omega
    simp only [checked.bind, hlt2, if_true]
    rw [c_string_checked_ok
      (Function.update (Function.update b n 0) (trim_loop (Function.update b n 0) n) 0)
      (trim_loop (Function.update b n 0) n) _ 0
      (by rw [Nat.zero_add, Function.update_same]) (by unfold MAX_COLUMNS; omega)]
  · simp only [hp, Bool.false_eq_true, if_false]
    have r := decoded_range attr
    rw [table_at_ok reverse_bits (bits attr 0 3) 0 (bits3_lt attr 0)]
    simp only [checked.bind]
    rw [table_at_ok g.ansi_fg_color _ [] (by rw [hfg]; exact r.1)]
    simp only [checked.bind]
    rw [table_at_ok reverse_bits (bits attr 4 3) 0 (bits3_lt attr 4)]
    simp only [checked.bind]
    rw [table_at_ok g.ansi_bg_color _ [] (by rw [hbg]; exact r.2)]
    simp only [checked.bind]
    rw [c_string_checked_ok (Function.update b n 0) n _ 0
      (by rw [Nat.zero_add, Function.update_same]) (by unfold MAX_COLUMNS; omega)]
    rfl

theorem column_step_p (g : Globals) (cnsl : console) (i : Nat) (st : print_state) (j : Nat) :
    (column_step g cnsl i st j).p ≤ st.p + 1 := by
  unfold column_step
  by_cases hp : cnsl.flags.plain = true
  · simp [hp]
  · by_cases hj : j = 0
    · simp [hp, hj]
    · by_cases ha : cell_attr cnsl.mask (cnsl.chars i j) = st.c
      · simp [hp, hj, ha]
      · simp [hp, hj, ha]

theorem fold_columns_p (g : Globals) (cnsl : console) (i : Nat) :
    ∀ (l : List Nat) (st : print_state),
      (l.foldl (column_step g cnsl i) st).p ≤ st.p + l.length := by
  intro l
  induction l with
  | nil => intro st; simp
  | cons j l ih =>
    intro st
    have h1 := ih (column_step g cnsl i st j)
    have h2 := column_step_p g cnsl i st j
    simp only [List.foldl_cons, List.length_cons]
    omega

theorem column_step_checked_ok (g : Globals) (cnsl : console) (i : Nat) (st : print_state)
    (j : Nat) (hi : i < 255) (hj : j < 255) (hp : st.p ≤ j)
    (hfg : g.ansi_fg_color.length = 8) (hbg : g.ansi_bg_color.length = 8) :
    column_step_checked g cnsl i st j = checked.ok (column_step g cnsl i st j) := by
  have hij : i < MAX_LINES ∧ j < MAX_COLUMNS := by unfold MAX_LINES MAX_COLUMNS; omega
  have hlt : st.p < MAX_COLUMNS + 1 := by unfold MAX_COLUMNS; omega
  have h0 : 0 < MAX_COLUMNS + 1 := by unfold MAX_COLUMNS; omega
  unfold column_step_checked column_step
  simp only [hij, and_self, if_true]
  by_cases hpl : cnsl.flags.plain = true
  · simp [hpl, checked.bind, hlt]
  · by_cases hj0 : j = 0
    · simp [hpl, hj0, checked.bind, hlt]
    · by_cases ha : cell_attr cnsl.mask (cnsl.chars i j) = st.c
      · simp [hpl, hj0, ha, checked.bind, hlt]
      · simp only [hpl, hj0, ha, ne_eq, not_false_eq_true, if_true, if_false]
        rw [console_print_buffer_checked_ok g cnsl st.line st.p st.c st.out (by omega) hfg hbg]
        simp [checked.bind, h0]

theorem fold_columns_checked_ok (g : Globals) (cnsl : console) (i : Nat) (hi : i < 255)
    (hfg : g.ansi_fg_color.length = 8) (hbg : g.ansi_bg_color.length = 8) :
    ∀ (n s : Nat) (st : print_state), st.p ≤ s → s + n ≤ 255 →
      fold_checked (column_step_checked g cnsl i) (List.range' s n) st =
        checked.ok ((List.range' s n).foldl (column_step g cnsl i) st) := by
  intro n
  induction n with
  | zero => intro s st _ _; rfl
  | succ n ih =>
    intro s st hp hs
    rw [List.range'_succ]
    simp only [fold_checked, List.foldl_cons]
    rw [column_step_checked_ok g cnsl i st s hi (by omega) hp hfg hbg]
    simp only [checked.bind]
    have h2 := column_step_p g cnsl i st s
    exact ih (s + 1) _ (by omega) (by omega)

theorem row_finish_checked_ok (g : Globals) (cnsl : console) (st : print_state)
    (hp : st.p ≤ 255) (hfg : g.ansi_fg_color.length = 8) (hbg : g.ansi_bg_color.length = 8) :
    row_finish_checked g cnsl st = checked.ok (row_finish g cnsl st) := by
  unfold row_finish_checked row_finish
  by_cases h0 : st.p > 0
  · simp only [h0, if_true]
    rw [console_print_buffer_checked_ok g cnsl st.line st.p st.c st.out hp hfg hbg]
    rfl
  · simp only [h0, if_false]
    rfl

theorem row_step_checked_ok (g : Globals) (cnsl : console) (st : print_state) (i : Nat)
    (hi : i < 255) (hc : cnsl.attributes.columns ≤ 255)
    (hfg : g.ansi_fg_color.length = 8) (hbg : g.ansi_bg_color.length = 8) :
    row_step_checked g cnsl st i = checked.ok (row_step g cnsl st i) := by
  unfold row_step_checked row_step
  rw [List.range_eq_range',
    fold_columns_checked_ok g cnsl i hi hfg hbg cnsl.attributes.columns 0 { st with p := 0 }
      (by simp) (by omega)]
  simp only [checked.bind]
  have hp := fold_columns_p g cnsl i (List.range' 0 cnsl.attributes.columns) { st with p := 0 }
  simp only [List.length_range', Nat.zero_add] at hp
  exact row_finish_checked_ok g cnsl _ (by omega) hfg hbg

theorem console_print_checked_ok (g : Globals) (cnsl : console) (line : Nat → Nat) (c0 : Int)
    (out : List Nat) (hl : cnsl.attributes.lines ≤ 255) (hc : cnsl.attributes.columns ≤ 255)
    (hfg : g.ansi_fg_color.length = 8) (hbg : g.ansi_bg_color.length = 8) :
    console_print_checked g cnsl line c0 out = checked.ok (console_print g cnsl line c0 out) := by
  unfold console_print_checked console_print
  simp only []
  rw [fold_checked_ok (row_step g cnsl) (row_step_checked g cnsl)
    (List.range cnsl.attributes.lines)
    (fun i hi st => row_step_checked_ok g cnsl st i
      (by have := List.mem_range.mp hi; omega) hc hfg hbg)]
  rfl

theorem console_read_core_checked_ok {σ : Type} (D : Device σ) (dev : σ) (size room : Nat)
    (h : size ≤ room) :
    console_read_core_checked D dev size room = checked.of_option (console_read_core D dev size) := by
  unfold console_read_core_checked
  rw [if_pos h]

theorem read_row_checked_ok {σ : Type} (D : Device σ) (s : console × σ) (i : Nat)
    (hi : i < 255) (hc : s.1.attributes.columns ≤ 255) :
    read_row_checked D s i = checked.of_option (read_row D s i) := by
  have hlt : i < MAX_LINES := by unfold MAX_LINES; omega
  unfold read_row_checked read_row
  rw [if_pos hlt, console_read_core_checked_ok D _ _ _ (by unfold MAX_COLUMNS; omega)]
  cases console_read_core D s.2 (s.1.attributes.columns * 2) <;> rfl

theorem read_rows_checked_ok {σ : Type} (D : Device σ) :
    ∀ (l : List Nat) (s : console × σ), (∀ i ∈ l, i < 255) → s.1.attributes.columns ≤ 255 →
      fold_checked (read_row_checked D) l s = checked.of_option (l.foldlM (read_row D) s) := by
  intro l
  induction l with
  | nil => intro s _ _; rfl
  | cons i l ih =>
    intro s hl hc
    rw [List.foldlM_cons]
    simp only [fold_checked]
    rw [read_row_checked_ok D s i (hl i (List.mem_cons_self _ _)) hc]
    cases h1 : read_row D s i with
    | none => rfl
    | some s1 =>
      obtain ⟨a1, -⟩ := read_row_some D s s1 i h1
      simp only [checked.of_option, checked.bind, Option.bind_eq_bind, Option.some_bind]
      exact ih s1 (fun k hk => hl k (List.mem_cons_of_mem _ hk)) (by rw [a1]; exact hc)

theorem console_read_checked_ok {σ : Type} (D : Device σ) (cnsl : console) (dev : σ)
    (hb : ∀ b ∈ (D.read dev 4).1, b < 256) :
    console_read_checked D cnsl dev = checked.of_option (console_read D cnsl dev) := by
  have hget : ∀ k, (D.read dev 4).1.getD k 0 ≤ 255 := by
    intro k
    by_cases hk : k < (D.read dev 4).1.length
    · rw [List.getD_eq_getElem _ _ hk]
      have := hb _ (List.getElem_mem hk)
      omega
    · rw [List.getD_eq_default _ _ (by omega)]
      omega
  unfold console_read_checked console_read
  rw [console_read_core_checked_ok D dev 4 4 (le_refl _)]
  cases h1 : console_read_core D dev 4 with
  | none => rfl
  | some r =>
    obtain ⟨e, -⟩ := console_read_core_some D _ _ r h1
    subst e
    simp only [checked.of_option, checked.bind]
    rw [read_rows_checked_ok D _ _
      (fun i hi => by
        have h1 := List.mem_range.mp hi
        have h2 := hget 0
        simp only [] at h1
        omega)
      (hget 1)]
    cases (List.range ((D.read dev 4).1.getD 0 0)).foldlM (read_row D)
      ({ cnsl with attributes :=
          { lines := (D.read dev 4).1.getD 0 0, columns := (D.read dev 4).1.getD 1 0,
            x := (D.read dev 4).1.getD 2 0, y := (D.read dev 4).1.getD 3 0 } }, (D.read dev 4).2) <;> rfl

/-- C14: for every console whose row and column counts are at most 255, with
colour tables of 8 entries as `main` sets them up, `console_print` with
every array access checked completes with the result of `console_print`,
so no access leaves its array: the row index is below `MAX_LINES`, the
column index below `MAX_COLUMNS`, the writes `line[p]` and `buffer[n]` and
the reads of `printf` stay inside the 256 bytes of `line`, and the table
indices are below 8.  The line-buffer position after `k` columns of a row
is at most `k`.  `console_read` with checked accesses completes or ends the
process as `console_read` does, for every device that delivers bytes, and
the frame it reads has at most 255 rows and 255 columns.  All functions are
total. -/
theorem accesses_in_bounds (g : Globals) (cnsl : console) (line : Nat → Nat) (c0 : Int)
    (out : List Nat) (hfg : g.ansi_fg_color.length = 8) (hbg : g.ansi_bg_color.length = 8)
    (hl : cnsl.attributes.lines ≤ 255) (hc : cnsl.attributes.columns ≤ 255) :
    console_print_checked g cnsl line c0 out = checked.ok (console_print g cnsl line c0 out) ∧
    (∀ {σ : Type} (D : Device σ) (dev : σ), (∀ b ∈ (D.read dev 4).1, b < 256) →
      console_read_checked D cnsl dev = checked.of_option (console_read D cnsl dev) ∧
      ∀ s, console_read D cnsl dev = some s →
        s.1.attributes.lines ≤ 255 ∧ s.1.attributes.columns ≤ 255) ∧
    (∀ (st : print_state) (i k : Nat), k ≤ cnsl.attributes.columns →
      ((List.range k).foldl (column_step g cnsl i) { st with p := 0 }).p ≤ k ∧ k ≤ 255) ∧
    (∀ attr, bits attr 0 3 < 8 ∧ bits attr 4 3 < 8 ∧ fg_index attr < 8 ∧ bg_index attr < 8) ∧
    MAX_LINES = 255 ∧ MAX_COLUMNS = 255 ∧ reverse_bits.length = 8 ∧
    (∀ opts isatty g0 c, main_setup opts isatty = some (g0, c) →
      g0.ansi_fg_color.length = 8 ∧ g0.ansi_bg_color.length = 8) := by
  refine ⟨console_print_checked_ok g cnsl line c0 out hl hc hfg hbg, ?_, ?_, ?_, rfl, rfl, rfl, ?_⟩
  · intro σ D dev hb
    refine ⟨console_read_checked_ok D cnsl dev hb, ?_⟩
    intro s hs
    obtain ⟨-, -, a⟩ := console_read_some D cnsl dev s hs
    have hget : ∀ k, (D.read dev 4).1.getD k 0 ≤ 255 := by
      intro k
      by_cases hk : k < (D.read dev 4).1.length
      · rw [List.getD_eq_getElem _ _ hk]
        have := hb _ (List.getElem_mem hk)
        omega
      · rw [List.getD_eq_default _ _ (by omega)]
        omega
    rw [a]
    exact ⟨hget 0, hget 1⟩
  · intro st i k hk
    have h := fold_columns_p g cnsl i (List.range k) { st with p := 0 }
    simp only [List.length_range, Nat.zero_add] at h
    exact ⟨h, by omega⟩
  · intro attr
    have r := decoded_range attr
    exact ⟨bits3_lt attr 0, bits3_lt attr 4, r.1, r.2⟩
  · intro opts isatty g0 c h
    obtain ⟨hg, -⟩ := main_setup_spec opts isatty g0 c h
    rw [hg]
    cases c.flags.light <;> exact ⟨rfl, rfl⟩

set_option maxRecDepth 1000000 in
/-- Witness for C14: the frame of the largest size, 255 rows of 255 columns,
is printed without an access outside an array, while a column count of 256,
which no header can hold, makes the checked program leave an array. -/
theorem accesses_in_bounds_witness :
    full_frame.attributes.lines = 255 ∧ full_frame.attributes.columns = 255 ∧
    console_print_checked Globals.initial full_frame (fun _ => 0) 0 [] =
      checked.ok (console_print Globals.initial full_frame (fun _ => 0) 0 []) ∧
    (console_print_checked Globals.initial wide_frame (fun _ => 0) 0 []).is_overflow = true :=
  ⟨rfl, rfl,
    (accesses_in_bounds Globals.initial full_frame (fun _ => 0) 0 [] rfl rfl (by decide)
      (by decide)).1,
    by decide⟩

end Peep
